import Mathlib

set_option maxHeartbeats 1000000

/-!
Verification development for the instant-paste room relay and its browser
client.  The server model follows `src/server.js` (the revision that defines
`CONFIG`, `validateRoomId`, `handleFileStart`, ...); the client transfer and
key-exchange models follow `src/client/src/utils/useWebSocket.ts` together
with the bundled `e2ee` module and `src/client/src/utils/crypto.ts`.

JavaScript `Map` objects keyed by strings are embedded as association lists
(`List (String × α)`) with `aget` / `aset` / `adel` mirroring
`get` / `set` / `delete`.
-/

/-!
Base64, as produced by `FileReader.readAsDataURL` / `btoa` and consumed by
`atob`: each 3-byte group becomes 4 alphabet characters, with `=` padding for
a trailing 1- or 2-byte group.  Bytes are `Nat`s below 256, strings are
character lists.
-/

/-- `Map.get`: first entry with the given key. -/
def aget {α : Type} : List (String × α) → String → Option α
  | [], _ => none
  | p :: t, k => if p.1 = k then some p.2 else aget t k

/-- `Map.set`: replace the entry with the given key, or append a new one. -/
def aset {α : Type} : List (String × α) → String → α → List (String × α)
  | [], k, v => [(k, v)]
  | p :: t, k, v => if p.1 = k then (k, v) :: t else p :: aset t k v

/-- `Map.delete`: remove the entry with the given key. -/
def adel {α : Type} : List (String × α) → String → List (String × α)
  | [], _ => []
  | p :: t, k => if p.1 = k then t else p :: adel t k

/-- Keys of the association list are pairwise distinct (true for a `Map`). -/
def keysNodup {α : Type} (l : List (String × α)) : Prop :=
  (l.map Prod.fst).Nodup

/-- The base64 alphabet character for a 6-bit value. -/
def encChar (n : Nat) : Char :=
  if n < 26 then Char.ofNat (65 + n)
  else if n < 52 then Char.ofNat (97 + (n - 26))
  else if n < 62 then Char.ofNat (48 + (n - 52))
  else if n = 62 then '+'
  else '/'

/-- The 6-bit value of a base64 alphabet character (`none` outside the alphabet). -/
def decNat (c : Char) : Option Nat :=
  let v := c.toNat
  if 65 ≤ v ∧ v ≤ 90 then some (v - 65)
  else if 97 ≤ v ∧ v ≤ 122 then some (v - 97 + 26)
  else if 48 ≤ v ∧ v ≤ 57 then some (v - 48 + 52)
  else if v = 43 then some 62
  else if v = 47 then some 63
  else none

/-- `btoa`: encode a byte list, 3 bytes at a time, padding the final group. -/
def b64encode : List Nat → List Char
  | [] => []
  | [a] => [encChar (a / 4), encChar (a % 4 * 16), '=', '=']
  | [a, b] => [encChar (a / 4), encChar (a % 4 * 16 + b / 16), encChar (b % 16 * 4), '=']
  | a :: b :: c :: rest =>
    encChar (a / 4) :: encChar (a % 4 * 16 + b / 16) ::
      encChar (b % 16 * 4 + c / 64) :: encChar (c % 64) :: b64encode rest

/-- `atob`: decode 4 characters at a time; `none` models the thrown
`InvalidCharacterError`. -/
def b64decode : List Char → Option (List Nat)
  | [] => some []
  | c1 :: c2 :: c3 :: c4 :: rest =>
    match decNat c1, decNat c2 with
    | some v1, some v2 =>
      if c3 = '=' then
        if c4 = '=' ∧ rest = [] then some [v1 * 4 + v2 / 16] else none
      else
        match decNat c3 with
        | some v3 =>
          if c4 = '=' then
            if rest = [] then some [v1 * 4 + v2 / 16, v2 % 16 * 16 + v3 / 4] else none
          else
            match decNat c4, b64decode rest with
            | some v4, some bs =>
              some ((v1 * 4 + v2 / 16) :: (v2 % 16 * 16 + v3 / 4) :: (v3 % 4 * 64 + v4) :: bs)
            | _, _ => none
        | none => none
    | _, _ => none
  | _ => none

namespace Client

/-- `CHUNK_SIZE = 1024 * 1024` in `useWebSocket.ts`. -/
def CHUNK_SIZE : Nat := 1024 * 1024

/-- `Math.ceil(file.size / C)`: the sender's `totalChunks`. -/
def ceilDiv (size C : Nat) : Nat := (size + C - 1) / C

/-- `file.slice(i * C, min((i + 1) * C, file.size))` in `uploadFile`. -/
def sliceChunk (C : Nat) (file : List Nat) (i : Nat) : List Nat :=
  (file.drop (i * C)).take C

/-- All chunks the sender produces, in index order. -/
def chunksList (C : Nat) (file : List Nat) : List (List Nat) :=
  (List.range (ceilDiv file.length C)).map (sliceChunk C file)

/-- The `file-chunk` payloads `uploadFile` emits: `(chunkIndex, base64 chunk)`. -/
def sentChunkMsgs (file : List Nat) : List (Nat × List Char) :=
  (List.range (ceilDiv file.length CHUNK_SIZE)).map
    (fun i => (i, b64encode (sliceChunk CHUNK_SIZE file i)))

/-- A slot is counted by `chunks.filter(Boolean)` iff it holds a non-empty string
(array holes and `""` are falsy). -/
def isFilled : Option (List Char) → Bool
  | none => false
  | some s => !s.isEmpty

/-- `incomingFile.chunks[message.chunkIndex] = chunk` in `handleFileChunk`. -/
def deliverChunk (slots : List (Option (List Char))) (m : Nat × List Char) :
    List (Option (List Char)) :=
  slots.set m.1 (some m.2)

/-- `incomingFile.chunks.map(atob ...)`: decode each chunk independently;
`none` models the caught reassembly exception. -/
def decodeAll : List (Option (List Char)) → Option (List (List Nat))
  | [] => some []
  | none :: _ => none
  | some s :: t =>
    match b64decode s, decodeAll t with
    | some bytes, some rest => some (bytes :: rest)
    | _, _ => none

/-- Receiver reassembly in `handleFileChunk`: slots are index-addressed; once
`chunks.filter(Boolean).length === totalChunks`, every slot is decoded
independently and the byte arrays are concatenated into one blob. -/
def reassemble (total : Nat) (msgs : List (Nat × List Char)) : Option (List Nat) :=
  let slots := msgs.foldl deliverChunk (List.replicate total none)
  if (slots.filter isFilled).length = total then
    (decodeAll slots).map List.flatten
  else none

end Client

namespace E2ee

/-- Modelled from the spec: WebCrypto ECDH (`P-256`) used by
`deriveSharedSecret` in the `e2ee` module is a platform primitive, not
repository source.  Following §4.5 it is embedded as Diffie-Hellman
exponentiation in a fixed cyclic group: modulus `P` (kept below `2 ^ 16` so a
derived key fits in two tag bytes). -/
def P : Nat := 65521

/-- Modelled from the spec: the group generator of the Diffie-Hellman model. -/
def G : Nat := 7

/-- The exported public key corresponding to a private scalar. -/
def pubOf (priv : Nat) : Nat := G ^ priv % P

/-- `deriveSharedSecret(privateKey, publicKey)`: the ECDH shared secret. -/
def deriveSharedSecret (priv pub : Nat) : Nat := pub ^ priv % P

/-- Modelled from the spec: the AES-GCM keystream byte at position `i`. -/
def ks (key i : Nat) : Nat := (key + i) % 256

/-- Encrypt a byte sequence starting at keystream position `i`. -/
def gcmEncBytes (key : Nat) : Nat → List Nat → List Nat
  | _, [] => []
  | i, b :: t => (b + ks key i) % 256 :: gcmEncBytes key (i + 1) t

/-- Decrypt a byte sequence starting at keystream position `i`. -/
def gcmDecBytes (key : Nat) : Nat → List Nat → List Nat
  | _, [] => []
  | i, b :: t => (b + 256 - ks key i) % 256 :: gcmDecBytes key (i + 1) t

/-- Modelled from the spec: the 16-byte authentication tag (`tagLength: 128`)
of the AES-GCM model; it binds key, nonce and ciphertext, so verification
fails whenever any of them differ. -/
def gcmTag (key : Nat) (nonce payload : List Nat) : List Nat :=
  key % 256 :: key / 256 :: nonce.sum % 256 :: (payload.sum + payload.length) % 256 ::
    List.replicate 12 0

/-- Modelled from the spec: `crypto.subtle.encrypt({name: 'AES-GCM', iv}, ...)`:
ciphertext followed by the authentication tag. -/
def gcmEncrypt (key : Nat) (nonce m : List Nat) : List Nat :=
  gcmEncBytes key 0 m ++ gcmTag key nonce (gcmEncBytes key 0 m)

/-- Modelled from the spec: `crypto.subtle.decrypt`: verify the tag, then
invert the keystream; `none` models the thrown `OperationError`. -/
def gcmDecrypt (key : Nat) (nonce ct : List Nat) : Option (List Nat) :=
  if ct.length < 16 then none
  else if ct.drop (ct.length - 16) = gcmTag key nonce (ct.take (ct.length - 16)) then
    some (gcmDecBytes key 0 (ct.take (ct.length - 16)))
  else none

/-- `encryptFor(data, privateKey, publicKey)` in the `e2ee` module: derive the
shared key, encrypt under the fresh random 12-byte `iv` (made explicit here),
prepend the iv to the ciphertext and base64 the combination. -/
def encryptFor (data : List Nat) (privateKey publicKey : Nat) (iv : List Nat) :
    List Char :=
  b64encode (iv ++ gcmEncrypt (deriveSharedSecret privateKey publicKey) iv data)

/-- The body of `decryptFrom` before its `try`/`catch`: `Except.error` models a
thrown exception (bad base64 in `atob`, or an AES-GCM `OperationError`). -/
def decryptFromBody (encryptedDataB64 : List Char) (privateKey publicKey : Nat) :
    Except String (List Nat) :=
  match b64decode encryptedDataB64 with
  | none => Except.error "InvalidCharacterError"
  | some combined =>
    match gcmDecrypt (deriveSharedSecret privateKey publicKey) (combined.take 12)
        (combined.drop 12) with
    | none => Except.error "OperationError"
    | some m => Except.ok m

/-- `decryptFrom`: the `try`/`catch` maps every thrown error to `null`. -/
def decryptFrom (encryptedDataB64 : List Char) (privateKey publicKey : Nat) :
    Option (List Nat) :=
  match decryptFromBody encryptedDataB64 privateKey publicKey with
  | Except.error _ => none
  | Except.ok m => some m

end E2ee

namespace CryptoTs

/-- Modelled from the spec: `CryptoJS.AES` passphrase encryption used by
`crypto.ts` is an external library; it is embedded as an ideal
password-authenticated cipher — a ciphertext records which password produced
it, and decryption recovers the plaintext exactly under that password. -/
structure CJCipher where
  pw : String
  body : List Char
deriving DecidableEq

/-- `encryptData(data, password)` in `crypto.ts`. -/
def encryptData (data : List Char) (password : String) : CJCipher :=
  ⟨password, data⟩

/-- `decryptData(encryptedData, password)` in `crypto.ts`: `null` when the
password mismatches, and also when the decrypted string is empty
(`if (!decrypted) return null`); the `try`/`catch` means no error escapes. -/
def decryptData (ct : CJCipher) (password : String) : Option (List Char) :=
  if ct.pw = password then (if ct.body.isEmpty then none else some ct.body) else none

end CryptoTs

namespace Server

/-- `CONFIG.MAX_ROOM_SIZE`. -/
def MAX_ROOM_SIZE : Nat := 10

/-- `CONFIG.MESSAGE_RATE_LIMIT` (messages per window). -/
def MESSAGE_RATE_LIMIT : Nat := 100

/-- `CONFIG.RATE_LIMIT_WINDOW` (ms). -/
def RATE_LIMIT_WINDOW : Nat := 1000

/-- `CONFIG.MAX_ROOM_INACTIVITY` (ms). -/
def MAX_ROOM_INACTIVITY : Nat := 60 * 60 * 1000

/-- `CONFIG.MAX_FILE_SIZE` (bytes). -/
def MAX_FILE_SIZE : Nat := 1024 * 1024 * 1024

/-- `CONFIG.MAX_FILENAME_LENGTH`. -/
def MAX_FILENAME_LENGTH : Nat := 255

/-- A room object: `clients` maps a connection id to its `publicKey`;
`activeTransfers` maps a connection id to its set of in-flight fileIds. -/
structure Room where
  clients : List (String × Option String)
  lastActivity : Nat
  activeTransfers : List (String × List String)
deriving DecidableEq

/-- Per-socket fields the relay stores on `ws`: `ws.roomId` and liveness. -/
structure ConnInfo where
  roomId : Option String
  isOpen : Bool
deriving DecidableEq

structure ServerState where
  rooms : List (String × Room)
  conns : List (String × ConnInfo)
deriving DecidableEq

/-- `clipboard` message fields the relay inspects or relays. -/
structure ClipData where
  contentType : Option String
  content : Option String
  fileId : Option String
  fileName : Option String
  fileSize : Option Nat
  totalChunks : Option Nat
deriving DecidableEq

/-- `file-start` message fields the relay validates. -/
structure FileStartData where
  fileId : Option String
  fileName : Option String
  fileSize : Option Nat
deriving DecidableEq

/-- `file-chunk` message fields; `none` in `chunkIndex`/`totalChunks` models a
non-number value. -/
structure ChunkData where
  fileId : Option String
  chunkIndex : Option Int
  totalChunks : Option Int
  chunk : Option (List Char)
deriving DecidableEq

/-- Messages the relay writes to a socket. -/
inductive SMsg where
  | error (code : String)
  | roomUpdate (roomId : String) (clients : List (String × Option String))
      (clientCount : Nat) (clientId : Option String)
  | reload
  | fileCancel (fileId senderId : String)
  | clipboardRelay (data : ClipData) (senderId : String) (timestamp : Nat)
  | chunkRelay (data : ChunkData) (senderId : String)
  | fileStartRelay (data : FileStartData) (senderId : String) (timestamp : Nat)
  | roomClosed (reason : String)
deriving DecidableEq

/-- `ws.readyState === WebSocket.OPEN`. -/
def connOpen (st : ServerState) (cid : String) : Bool :=
  match aget st.conns cid with
  | some ci => ci.isOpen
  | none => false

/-- `sendMessage` / `sendError`: write only to an open socket. -/
def sendTo (st : ServerState) (cid : String) (msg : SMsg) : List (String × SMsg) :=
  if connOpen st cid then [(cid, msg)] else []

/-- `broadcastToRoom(roomId, data, excludeWs)`: write the serialized payload to
every member whose socket is open, except the excluded one. -/
def broadcastToRoom (st : ServerState) (roomId : String) (msg : SMsg)
    (excludeWs : Option String) : List (String × SMsg) :=
  match aget st.rooms roomId with
  | none => []
  | some room =>
    room.clients.filterMap (fun p =>
      if some p.1 ≠ excludeWs ∧ connOpen st p.1 then some (p.1, msg) else none)

/-- `ws.roomId = r` (no effect on the map when the socket is unknown). -/
def setConnRoom (conns : List (String × ConnInfo)) (cid : String) (r : Option String) :
    List (String × ConnInfo) :=
  match aget conns cid with
  | some ci => aset conns cid ⟨r, ci.isOpen⟩
  | none => conns

/-- `ws.roomId`. -/
def connRoom (st : ServerState) (cid : String) : Option String :=
  match aget st.conns cid with
  | some ci => ci.roomId
  | none => none

/-- One character of `/^[A-Za-z0-9]{6}$/`. -/
def isAlnum (c : Char) : Bool :=
  ('A' ≤ c && c ≤ 'Z') || ('a' ≤ c && c ≤ 'z') || ('0' ≤ c && c ≤ '9')

/-- `/^[A-Za-z0-9]{6}$/.test(roomId)`. -/
def isValid6 (s : String) : Bool :=
  s.data.length = 6 && s.data.all isAlnum

/-- ASCII `toUpperCase` on one character. -/
def charUpper (c : Char) : Char :=
  if 'a' ≤ c && c ≤ 'z' then Char.ofNat (c.toNat - 32) else c

/-- `roomId.toUpperCase()`. -/
def upperStr (s : String) : String :=
  ⟨s.data.map charUpper⟩

/-- `validateRoomId`: `some code` is the rejection; a missing or empty id is
falsy (`!roomId`) and yields `ROOM_ID_REQUIRED`. -/
def validateRoomId (roomId : Option String) : Option String :=
  match roomId with
  | none => some "ROOM_ID_REQUIRED"
  | some s =>
    if s = "" then some "ROOM_ID_REQUIRED"
    else if isValid6 s then none
    else some "INVALID_ROOM_ID"

/-- The `fileName` clause of `validateFileStart`. -/
def fileNameError (fn : Option String) : Option String :=
  match fn with
  | some nm => if nm.data.length > MAX_FILENAME_LENGTH then some "INVALID_FILENAME" else none
  | none => none

/-- `validateFileStart`. -/
def validateFileStart (d : FileStartData) : Option String :=
  match d.fileId with
  | none => some "INVALID_FILE_ID"
  | some f =>
    if f = "" then some "INVALID_FILE_ID"
    else
      match d.fileSize with
      | some s =>
        if s > MAX_FILE_SIZE then some "FILE_TOO_LARGE" else fileNameError d.fileName
      | none => fileNameError d.fileName

/-- `validateFileChunk`. -/
def validateFileChunk (d : ChunkData) : Option String :=
  match d.fileId with
  | none => some "INVALID_FILE_ID"
  | some f =>
    if f = "" then some "INVALID_FILE_ID"
    else
      match d.chunkIndex, d.totalChunks with
      | some i, some t => if i < 0 ∨ i ≥ t then some "INVALID_MESSAGE" else none
      | _, _ => some "INVALID_MESSAGE"

/-- Add a fileId to the `Set` at `room.activeTransfers.get(id)`. -/
def addTransfer (ts : List (String × List String)) (cid f : String) :
    List (String × List String) :=
  match aget ts cid with
  | none => aset ts cid [f]
  | some s => aset ts cid (if f ∈ s then s else s ++ [f])

/-- Delete a fileId; drop the entry when its set becomes empty
(the `handleFileChunk` cleanup). -/
def removeTransfer (ts : List (String × List String)) (cid f : String) :
    List (String × List String) :=
  match aget ts cid with
  | none => ts
  | some s =>
    let s' := s.filter (fun g => g ≠ f)
    if s' = [] then adel ts cid else aset ts cid s'

/-- `handleLeave(ws)`: remove the member, broadcast `file-cancel` for each of
its in-flight fileIds, clear the tracking entry, then delete the room if empty
or broadcast the updated roster. -/
def handleLeave (st : ServerState) (cid : String) (now : Nat) :
    ServerState × List (String × SMsg) :=
  match connRoom st cid with
  | none => (st, [])
  | some rid =>
    match aget st.rooms rid with
    | none => (st, [])
    | some room =>
      if (aget room.clients cid).isSome = false then (st, [])
      else
        let clients' := adel room.clients cid
        let fids := (aget room.activeTransfers cid).getD []
        let room' : Room := ⟨clients', now, adel room.activeTransfers cid⟩
        let stMid : ServerState := ⟨aset st.rooms rid room', st.conns⟩
        let cancels :=
          (fids.map (fun f => broadcastToRoom stMid rid (SMsg.fileCancel f cid) none)).flatten
        if clients'.isEmpty then
          (⟨adel st.rooms rid, setConnRoom st.conns cid none⟩, cancels)
        else
          (⟨stMid.rooms, setConnRoom st.conns cid none⟩,
            cancels ++ broadcastToRoom stMid rid
              (SMsg.roomUpdate rid clients' clients'.length none) none)

/-- The body of `handleJoin` after validation and the leave-if-in-a-room step:
get-or-create the room, reject `ROOM_FULL`, add the member, stamp
`lastActivity`, broadcast the roster to everyone. -/
def joinCore (st1 : ServerState) (cid rid : String) (publicKey : Option String)
    (now : Nat) : ServerState × List (String × SMsg) :=
  let rooms2 :=
    match aget st1.rooms rid with
    | some _ => st1.rooms
    | none => aset st1.rooms rid ⟨[], now, []⟩
  let st2 : ServerState := ⟨rooms2, st1.conns⟩
  match aget st2.rooms rid with
  | none => (st2, [])
  | some room =>
    if room.clients.length ≥ MAX_ROOM_SIZE then
      (st2, sendTo st2 cid (SMsg.error "ROOM_FULL"))
    else
      let room' : Room := ⟨aset room.clients cid publicKey, now, room.activeTransfers⟩
      let st3 : ServerState :=
        ⟨aset st2.rooms rid room', setConnRoom st2.conns cid (some rid)⟩
      (st3, broadcastToRoom st3 rid
        (SMsg.roomUpdate rid room'.clients room'.clients.length none) none)

/-- `handleJoin(ws, roomId, publicKey)`: validate, canonicalize to uppercase,
leave the current room first if already in one, then `joinCore`. -/
def handleJoin (st : ServerState) (cid : String) (roomId : Option String)
    (publicKey : Option String) (now : Nat) : ServerState × List (String × SMsg) :=
  match validateRoomId roomId with
  | some code => (st, sendTo st cid (SMsg.error code))
  | none =>
    let leaveRes :=
      match connRoom st cid with
      | some _ => handleLeave st cid now
      | none => (st, [])
    let res := joinCore leaveRes.1 cid (upperStr (roomId.getD "")) publicKey now
    (res.1, leaveRes.2 ++ res.2)

/-- `handleCreate(ws, publicKey)`; `freshId` is the collision-free id that
`generateRoomId()` returned. -/
def handleCreate (st : ServerState) (cid : String) (publicKey : Option String)
    (freshId : String) (now : Nat) : ServerState × List (String × SMsg) :=
  let leaveRes :=
    match connRoom st cid with
    | some _ => handleLeave st cid now
    | none => (st, [])
  let st1 := leaveRes.1
  let room : Room := ⟨aset [] cid publicKey, now, []⟩
  let st2 : ServerState :=
    ⟨aset st1.rooms freshId room, setConnRoom st1.conns cid (some freshId)⟩
  (st2, leaveRes.2 ++ sendTo st2 cid
      (SMsg.roomUpdate freshId room.clients room.clients.length (some cid)) ++
    sendTo st2 cid SMsg.reload)

/-- `handleClipboard(ws, data)`: track a carried `fileId`, then relay to the
rest of the room stamped with `senderId`/`timestamp`. -/
def handleClipboard (st : ServerState) (cid : String) (d : ClipData) (now : Nat) :
    ServerState × List (String × SMsg) :=
  match connRoom st cid with
  | none => (st, sendTo st cid (SMsg.error "NOT_IN_ROOM"))
  | some rid =>
    match aget st.rooms rid with
    | none => (st, [])
    | some room =>
      let transfers' :=
        match d.fileId with
        | some f =>
          if f = "" then room.activeTransfers else addTransfer room.activeTransfers cid f
        | none => room.activeTransfers
      let room' : Room := ⟨room.clients, now, transfers'⟩
      let st1 : ServerState := ⟨aset st.rooms rid room', st.conns⟩
      (st1, broadcastToRoom st1 rid (SMsg.clipboardRelay d cid now) (some cid))

/-- `handleFileChunk(ws, data)`: validate, clean up tracking on the final
chunk, and relay stamped with `senderId` to the rest of the room. -/
def handleFileChunk (st : ServerState) (cid : String) (d : ChunkData) (now : Nat) :
    ServerState × List (String × SMsg) :=
  match connRoom st cid with
  | none => (st, sendTo st cid (SMsg.error "NOT_IN_ROOM"))
  | some rid =>
    match validateFileChunk d with
    | some code => (st, sendTo st cid (SMsg.error code))
    | none =>
      match aget st.rooms rid with
      | none => (st, [])
      | some room =>
        let f := d.fileId.getD ""
        let transfers' :=
          if d.chunkIndex = some (d.totalChunks.getD 0 - 1) then
            removeTransfer room.activeTransfers cid f
          else room.activeTransfers
        let room' : Room := ⟨room.clients, now, transfers'⟩
        let st1 : ServerState := ⟨aset st.rooms rid room', st.conns⟩
        (st1, broadcastToRoom st1 rid (SMsg.chunkRelay d cid) (some cid))

/-- `handleFileStart(ws, data)`: validate, track the transfer, and relay
stamped with `senderId`/`timestamp` to the rest of the room. -/
def handleFileStart (st : ServerState) (cid : String) (d : FileStartData) (now : Nat) :
    ServerState × List (String × SMsg) :=
  match connRoom st cid with
  | none => (st, sendTo st cid (SMsg.error "NOT_IN_ROOM"))
  | some rid =>
    match validateFileStart d with
    | some code => (st, sendTo st cid (SMsg.error code))
    | none =>
      match aget st.rooms rid with
      | none => (st, [])
      | some room =>
        let room' : Room :=
          ⟨room.clients, now, addTransfer room.activeTransfers cid (d.fileId.getD "")⟩
        let st1 : ServerState := ⟨aset st.rooms rid room', st.conns⟩
        (st1, broadcastToRoom st1 rid (SMsg.fileStartRelay d cid now) (some cid))

/-- Mark a socket closed. -/
def markClosed (conns : List (String × ConnInfo)) (cid : String) :
    List (String × ConnInfo) :=
  match aget conns cid with
  | some ci => aset conns cid ⟨ci.roomId, false⟩
  | none => conns

/-- `ws.on('close')` / heartbeat termination: the same cleanup as an explicit
leave, after which the socket is gone. -/
def disconnect (st : ServerState) (cid : String) (now : Nat) :
    ServerState × List (String × SMsg) :=
  let res := handleLeave st cid now
  (⟨res.1.rooms, markClosed res.1.conns cid⟩, res.2)

/-- `now - room.lastActivity > CONFIG.MAX_ROOM_INACTIVITY`. -/
def isIdle (now : Nat) (room : Room) : Bool :=
  now - room.lastActivity > MAX_ROOM_INACTIVITY

/-- The connection is a member of some idle room being swept. -/
def inIdleRoom (st : ServerState) (now : Nat) (cid : String) : Bool :=
  st.rooms.any (fun p => isIdle now p.2 && (aget p.2.clients cid).isSome)

/-- The inactive-room sweep: notify every member of an idle room with
`room-closed`, close their sockets, delete the room. -/
def sweep (st : ServerState) (now : Nat) : ServerState × List (String × SMsg) :=
  let msgs := (st.rooms.filter (fun p => isIdle now p.2)).map
    (fun p => p.2.clients.filterMap (fun q =>
      if connOpen st q.1 then some (q.1, SMsg.roomClosed "inactivity") else none))
  let conns' := st.conns.map (fun q =>
    if inIdleRoom st now q.1 then (q.1, (⟨q.2.roomId, false⟩ : ConnInfo)) else q)
  (⟨st.rooms.filter (fun p => !(isIdle now p.2)), conns'⟩, msgs.flatten)

/-- `checkRateLimit(ws)` over the `messageCounters` map: reset an expired
window, increment, reject when the count exceeds the budget. -/
def checkRateLimit (counters : List (String × (Nat × Nat))) (cid : String) (now : Nat) :
    List (String × (Nat × Nat)) × Bool :=
  let c0 :=
    match aget counters cid with
    | none => (0, now + RATE_LIMIT_WINDOW)
    | some c => if now > c.2 then (0, now + RATE_LIMIT_WINDOW) else c
  let c1 := (c0.1 + 1, c0.2)
  (aset counters cid c1, decide (c1.1 ≤ MESSAGE_RATE_LIMIT))

/-- Inbound client messages (`data.type` dispatch). -/
inductive CMsg where
  | join (roomId : Option String) (publicKey : Option String)
  | create (publicKey : Option String)
  | leave
  | clipboard (d : ClipData)
  | fileChunk (d : ChunkData)
  | fileStart (d : FileStartData)
deriving DecidableEq

/-- One `ws.on('message')` callback: rate-limit first — a rejected message is
answered with `RATE_LIMITED` and not forwarded — otherwise dispatch.
`freshId` stands for the id `generateRoomId()` would produce on `create`. -/
def onMessage (st : ServerState) (counters : List (String × (Nat × Nat)))
    (cid : String) (msg : CMsg) (freshId : String) (now : Nat) :
    ServerState × List (String × (Nat × Nat)) × List (String × SMsg) :=
  let rl := checkRateLimit counters cid now
  if rl.2 = false then (st, rl.1, sendTo st cid (SMsg.error "RATE_LIMITED"))
  else
    let res :=
      match msg with
      | CMsg.join roomId pk => handleJoin st cid roomId pk now
      | CMsg.create pk => handleCreate st cid pk freshId now
      | CMsg.leave => handleLeave st cid now
      | CMsg.clipboard d => handleClipboard st cid d now
      | CMsg.fileChunk d => handleFileChunk st cid d now
      | CMsg.fileStart d => handleFileStart st cid d now
    (res.1, rl.1, res.2)

/-- A relayed (fan-out) message, as opposed to a control reply. -/
def isRelay : SMsg → Bool
  | SMsg.clipboardRelay _ _ _ => true
  | SMsg.chunkRelay _ _ => true
  | SMsg.fileStartRelay _ _ _ => true
  | _ => false

end Server

/-- A two-member room with no active transfers, used as a concrete input. -/
def wsRoom0 : Server.Room :=
  ⟨[("A", none), ("B", none)], 0, []⟩

/-- The corresponding relay state: both sockets open, both in `ROOMA1`. -/
def wsState0 : Server.ServerState :=
  ⟨[("ROOMA1", wsRoom0)],
    [("A", ⟨some "ROOMA1", true⟩), ("B", ⟨some "ROOMA1", true⟩)]⟩

/-- A valid, non-final `file-chunk` that is the first message carrying `F1`. -/
def chunkMsg1 : Server.ChunkData :=
  ⟨some "F1", some 0, some 2, some ['x']⟩

/-- A single fresh open connection and no rooms. -/
def wsStateA : Server.ServerState := ⟨[], [("A", ⟨none, true⟩)]⟩

/-- The concrete create-then-join scenario state: two fresh open sockets. -/
def wsStateAB : Server.ServerState :=
  ⟨[], [("A", ⟨none, true⟩), ("B", ⟨none, true⟩)]⟩

namespace Server

/-- Run `checkRateLimit` over successive message timestamps of one connection,
collecting each allow/reject decision. -/
def rlRun (counters : List (String × (Nat × Nat))) (cid : String) : List Nat → List Bool
  | [] => []
  | t :: ts =>
    (checkRateLimit counters cid t).2 :: rlRun (checkRateLimit counters cid t).1 cid ts

/-- The empty relay state. -/
def initState : ServerState := ⟨[], []⟩

/-- One event of the relay process: a socket connects, an inbound message is
dispatched, a socket closes (or the heartbeat reaps it), or the idle-room
sweep fires. -/
inductive Step : ServerState → ServerState → Prop
  | newConn (st : ServerState) (cid : String) (h : aget st.conns cid = none) :
      Step st ⟨st.rooms, aset st.conns cid ⟨none, true⟩⟩
  | join (st : ServerState) (cid : String) (roomId : Option String)
      (pk : Option String) (now : Nat) (h : (aget st.conns cid).isSome) :
      Step st (handleJoin st cid roomId pk now).1
  | create (st : ServerState) (cid : String) (pk : Option String) (freshId : String)
      (now : Nat) (h : (aget st.conns cid).isSome)
      (hfresh : aget st.rooms freshId = none) :
      Step st (handleCreate st cid pk freshId now).1
  | leave (st : ServerState) (cid : String) (now : Nat) :
      Step st (handleLeave st cid now).1
  | clipboard (st : ServerState) (cid : String) (d : ClipData) (now : Nat) :
      Step st (handleClipboard st cid d now).1
  | fileChunk (st : ServerState) (cid : String) (d : ChunkData) (now : Nat) :
      Step st (handleFileChunk st cid d now).1
  | fileStart (st : ServerState) (cid : String) (d : FileStartData) (now : Nat) :
      Step st (handleFileStart st cid d now).1
  | close (st : ServerState) (cid : String) (now : Nat) :
      Step st (disconnect st cid now).1
  | idleSweep (st : ServerState) (now : Nat) :
      Step st (sweep st now).1

/-- States reachable from a fresh relay process. -/
inductive Reachable : ServerState → Prop
  | init : Reachable initState
  | step {s s' : ServerState} (h : Reachable s) (hs : Step s s') : Reachable s'

/-- The state invariant: room and connection maps have distinct keys, every
room in the map is non-empty, and every member's socket record points back at
exactly that room. -/
structure Inv (st : ServerState) : Prop where
  roomsND : keysNodup st.rooms
  connsND : keysNodup st.conns
  clientsND : ∀ p ∈ st.rooms, keysNodup p.2.clients
  clientsNE : ∀ p ∈ st.rooms, p.2.clients ≠ []
  ptr : ∀ p ∈ st.rooms, ∀ q ∈ p.2.clients,
    ∃ ci, aget st.conns q.1 = some ci ∧ ci.roomId = some p.1

/-- The per-connection state of `ids` fresh sockets. -/
def freshConns (ids : List String) : List (String × ConnInfo) :=
  ids.map (fun i => (i, ⟨none, true⟩))

/-- `N` successive `join` messages for the same room. -/
def joinAll (rid : String) : List String → ServerState → ServerState
  | [], st => st
  | i :: rest, st => joinAll rid rest (handleJoin st i (some rid) none 0).1

/-- `M` successive `leave` messages. -/
def leaveAll : List String → ServerState → ServerState
  | [], st => st
  | i :: rest, st => leaveAll rest (handleLeave st i 0).1

/-- Eleven pairwise-distinct connection ids. -/
def elevenIds : List String :=
  ["C01", "C02", "C03", "C04", "C05", "C06", "C07", "C08", "C09", "C10", "C11"]

end Server

/-- A concrete clipboard message with no fileId. -/
def clipMsg0 : Server.ClipData :=
  ⟨some "text", some "hi", none, none, none, none⟩

/-- A two-member room in which `A` has one in-flight transfer `F1`. -/
def wsRoomT : Server.Room :=
  ⟨[("A", none), ("B", none)], 0, [("A", ["F1"])]⟩

/-- The relay state around `wsRoomT`: both sockets open, both in `ROOMA1`. -/
def wsStateT : Server.ServerState :=
  ⟨[("ROOMA1", wsRoomT)],
    [("A", ⟨some "ROOMA1", true⟩), ("B", ⟨some "ROOMA1", true⟩)]⟩

theorem aget_nil {α : Type} (k : String) : aget ([] : List (String × α)) k = none := rfl

theorem aget_cons {α : Type} (p : String × α) (t : List (String × α)) (k : String) :
    aget (p :: t) k = if p.1 = k then some p.2 else aget t k := rfl

theorem aget_aset_self {α : Type} (l : List (String × α)) (k : String) (v : α) :
    aget (aset l k v) k = some v := by
  induction l with
  | nil => simp [aset, aget]
  | cons p t ih =>
    by_cases h : p.1 = k
    · simp [aset, aget, h]
    · simp [aset, aget, h, ih]

theorem aget_aset_ne {α : Type} {l : List (String × α)} {k k' : String} (v : α)
    (h : k' ≠ k) : aget (aset l k v) k' = aget l k' := by
  have hne : ¬ k = k' := fun hc => h (Eq.symm hc)
  induction l with
  | nil =>
    show (if k = k' then some v else aget [] k') = none
    rw [if_neg hne]
    rfl
  | cons p t ih =>
    by_cases hp : p.1 = k
    · subst hp
      simp [aset, aget, hne]
    · simp only [aset, if_neg hp, aget]
      rw [ih]

theorem aget_eq_none_iff {α : Type} {l : List (String × α)} {k : String} :
    aget l k = none ↔ ∀ p ∈ l, p.1 ≠ k := by
  induction l with
  | nil => simp [aget]
  | cons p t ih =>
    by_cases h : p.1 = k
    · simp [aget, h]
    · simp [aget, h, ih]

theorem aget_mem {α : Type} {l : List (String × α)} {k : String} {v : α}
    (h : aget l k = some v) : (k, v) ∈ l := by
  induction l with
  | nil => simp [aget] at h
  | cons p t ih =>
    rcases p with ⟨a, b⟩
    by_cases hp : a = k
    · subst hp
      simp [aget] at h
      subst h
      exact List.mem_cons_self _ _
    · simp only [aget, if_neg hp] at h
      exact List.mem_cons_of_mem _ (ih h)

theorem isSome_aget_of_mem {α : Type} {l : List (String × α)} {k : String} {v : α}
    (h : (k, v) ∈ l) : (aget l k).isSome := by
  induction l with
  | nil => simp at h
  | cons p t ih =>
    rcases List.mem_cons.mp h with h1 | h2
    · simp [aget, ← h1]
    · by_cases hp : p.1 = k
      · simp [aget, hp]
      · simpa [aget, hp] using ih h2

theorem aget_of_mem_nodup {α : Type} {l : List (String × α)} {k : String} {v : α}
    (hnd : keysNodup l) (h : (k, v) ∈ l) : aget l k = some v := by
  induction l with
  | nil => simp at h
  | cons p t ih =>
    rw [keysNodup, List.map_cons, List.nodup_cons] at hnd
    rcases List.mem_cons.mp h with h1 | h2
    · simp [aget, ← h1]
    · have hp : p.1 ≠ k := by
        intro hk
        exact hnd.1 (hk ▸ (List.mem_map.mpr ⟨(k, v), h2, rfl⟩))
      simp [aget, hp]
      exact ih hnd.2 h2

theorem mem_aset {α : Type} {l : List (String × α)} {k : String} {v : α} {p : String × α}
    (h : p ∈ aset l k v) : p = (k, v) ∨ p ∈ l := by
  induction l with
  | nil => simpa [aset] using h
  | cons q t ih =>
    by_cases hq : q.1 = k
    · simp [aset, hq] at h
      rcases h with h | h
      · left; exact h
      · right; exact List.mem_cons_of_mem _ h
    · simp [aset, hq] at h
      rcases h with h | h
      · right; simp [h]
      · rcases ih h with h' | h'
        · left; exact h'
        · right; exact List.mem_cons_of_mem _ h'

theorem mem_aset_nodup {α : Type} {l : List (String × α)} {k : String} {v : α}
    {p : String × α} (hnd : keysNodup l) (h : p ∈ aset l k v) :
    p = (k, v) ∨ (p ∈ l ∧ p.1 ≠ k) := by
  induction l with
  | nil => simpa [aset] using h
  | cons q t ih =>
    rw [keysNodup, List.map_cons, List.nodup_cons] at hnd
    by_cases hq : q.1 = k
    · simp [aset, hq] at h
      rcases h with h | h
      · left; exact h
      · right
        refine ⟨List.mem_cons_of_mem _ h, ?_⟩
        intro hk
        exact hnd.1 (hq ▸ hk ▸ (List.mem_map.mpr ⟨p, h, rfl⟩))
    · simp [aset, hq] at h
      rcases h with h | h
      · right; exact ⟨by simp [h], by simp [h, hq]⟩
      · rcases ih hnd.2 h with h' | h'
        · left; exact h'
        · right; exact ⟨List.mem_cons_of_mem _ h'.1, h'.2⟩

theorem mem_aset_of_ne {α : Type} {l : List (String × α)} {k : String} (v : α)
    {p : String × α} (hp : p ∈ l) (hne : p.1 ≠ k) : p ∈ aset l k v := by
  induction l with
  | nil => simp at hp
  | cons q t ih =>
    by_cases hq : q.1 = k
    · rcases List.mem_cons.mp hp with h1 | h2
      · exact absurd (h1 ▸ hq) hne
      · simp [aset, hq]
        right; exact h2
    · rcases List.mem_cons.mp hp with h1 | h2
      · simp [aset, hq, h1]
      · simp [aset, hq]
        right; exact ih h2

theorem aset_keys_of_none {α : Type} {l : List (String × α)} {k : String} (v : α)
    (h : aget l k = none) : (aset l k v).map Prod.fst = l.map Prod.fst ++ [k] := by
  induction l with
  | nil => simp [aset]
  | cons p t ih =>
    by_cases hp : p.1 = k
    · simp [aget, hp] at h
    · simp [aget, hp] at h
      simp [aset, hp, ih h]

theorem aset_keys_of_some {α : Type} {l : List (String × α)} {k : String} (v : α)
    (h : (aget l k).isSome) : (aset l k v).map Prod.fst = l.map Prod.fst := by
  induction l with
  | nil => simp [aget] at h
  | cons p t ih =>
    by_cases hp : p.1 = k
    · simp [aset, hp]
    · simp [aget, hp] at h
      simp [aset, hp, ih h]

theorem keysNodup_aset {α : Type} {l : List (String × α)} {k : String} (v : α)
    (hnd : keysNodup l) : keysNodup (aset l k v) := by
  rcases h : aget l k with _ | w
  · rw [keysNodup, aset_keys_of_none v h]
    refine List.Nodup.append hnd (by simp) ?_
    intro a ha hb
    simp at hb
    subst hb
    rcases List.mem_map.mp ha with ⟨p, hp, hpk⟩
    exact (aget_eq_none_iff.mp h p hp) hpk
  · rw [keysNodup, aset_keys_of_some v (by simp [h])]
    exact hnd

theorem aset_of_none_eq_append {α : Type} {l : List (String × α)} {k : String} (v : α)
    (h : aget l k = none) : aset l k v = l ++ [(k, v)] := by
  induction l with
  | nil => simp [aset]
  | cons p t ih =>
    by_cases hp : p.1 = k
    · simp [aget, hp] at h
    · simp [aget, hp] at h
      simp [aset, hp, ih h]

theorem length_aset_some {α : Type} {l : List (String × α)} {k : String} (v : α)
    (h : (aget l k).isSome) : (aset l k v).length = l.length := by
  have := aset_keys_of_some (l := l) (k := k) v h
  have h1 : ((aset l k v).map Prod.fst).length = (l.map Prod.fst).length := by rw [this]
  simpa using h1

theorem length_aset_none {α : Type} {l : List (String × α)} {k : String} (v : α)
    (h : aget l k = none) : (aset l k v).length = l.length + 1 := by
  rw [aset_of_none_eq_append v h]
  simp

theorem aset_ne_nil {α : Type} (l : List (String × α)) (k : String) (v : α) :
    aset l k v ≠ [] := by
  cases l with
  | nil => simp [aset]
  | cons p t =>
    by_cases hp : p.1 = k <;> simp [aset, hp]

theorem adel_sublist {α : Type} (l : List (String × α)) (k : String) :
    List.Sublist (adel l k) l := by
  induction l with
  | nil => simp [adel]
  | cons p t ih =>
    by_cases hp : p.1 = k
    · simp only [adel, if_pos hp]
      exact List.sublist_cons_self p t
    · simp only [adel, if_neg hp]
      exact List.Sublist.cons₂ p ih

theorem mem_of_mem_adel {α : Type} {l : List (String × α)} {k : String} {p : String × α}
    (h : p ∈ adel l k) : p ∈ l :=
  (adel_sublist l k).subset h

theorem keysNodup_adel {α : Type} {l : List (String × α)} (k : String)
    (hnd : keysNodup l) : keysNodup (adel l k) :=
  List.Nodup.sublist (List.Sublist.map Prod.fst (adel_sublist l k)) hnd

theorem aget_adel_self {α : Type} {l : List (String × α)} (k : String)
    (hnd : keysNodup l) : aget (adel l k) k = none := by
  induction l with
  | nil => simp [adel, aget]
  | cons p t ih =>
    rw [keysNodup, List.map_cons, List.nodup_cons] at hnd
    by_cases hp : p.1 = k
    · simp only [adel, hp, if_true]
      rw [aget_eq_none_iff]
      intro q hq hqk
      exact hnd.1 (hp ▸ hqk ▸ (List.mem_map.mpr ⟨q, hq, rfl⟩))
    · simp [adel, hp, aget, ih hnd.2]

theorem aget_adel_ne {α : Type} {l : List (String × α)} {k k' : String}
    (h : k' ≠ k) : aget (adel l k) k' = aget l k' := by
  induction l with
  | nil => simp [adel]
  | cons p t ih =>
    by_cases hp : p.1 = k
    · subst hp
      have hne : ¬ p.1 = k' := fun hc => h (Eq.symm hc)
      simp [adel, aget, hne]
    · simp only [adel, if_neg hp, aget]
      rw [ih]

theorem adel_cons_self {α : Type} (k : String) (v : α) (t : List (String × α)) :
    adel ((k, v) :: t) k = t := by
  simp [adel]

theorem length_adel_of_isSome {α : Type} {l : List (String × α)} {k : String}
    (h : (aget l k).isSome) : (adel l k).length + 1 = l.length := by
  induction l with
  | nil => simp [aget] at h
  | cons p t ih =>
    by_cases hp : p.1 = k
    · simp [adel, hp]
    · simp [aget, hp] at h
      simp [adel, hp, ih h]

theorem nodup_key_inj {α : Type} {l : List (String × α)} {p q : String × α}
    (hnd : keysNodup l) (hp : p ∈ l) (hq : q ∈ l) (hk : p.1 = q.1) : p = q := by
  induction l with
  | nil => simp at hp
  | cons r t ih =>
    rw [keysNodup, List.map_cons, List.nodup_cons] at hnd
    rcases List.mem_cons.mp hp with hp1 | hp2 <;> rcases List.mem_cons.mp hq with hq1 | hq2
    · rw [hp1, hq1]
    · exact absurd (List.mem_map.mpr ⟨q, hq2, (hk ▸ hp1 ▸ rfl)⟩) hnd.1
    · exact absurd (List.mem_map.mpr ⟨p, hp2, (hk ▸ hq1 ▸ rfl)⟩) hnd.1
    · exact ih hnd.2 hp2 hq2

theorem decNat_encChar {n : Nat} (h : n < 64) : decNat (encChar n) = some n := by
  revert n h
  decide

theorem encChar_ne_pad {n : Nat} (h : n < 64) : encChar n ≠ '=' := by
  revert n h
  decide

theorem b64encode_ne_nil {l : List Nat} (h : l ≠ []) : b64encode l ≠ [] := by
  rcases l with _ | ⟨a, l⟩
  · exact absurd rfl h
  rcases l with _ | ⟨b, l⟩
  · simp [b64encode]
  rcases l with _ | ⟨c, rest⟩
  · simp [b64encode]
  · simp [b64encode]

theorem b64_roundtrip_len :
    ∀ (n : Nat), ∀ (l : List Nat), l.length ≤ n → (∀ x ∈ l, x < 256) →
      b64decode (b64encode l) = some l := by
  intro n
  induction n with
  | zero =>
    intro l hl _
    have : l = [] := List.eq_nil_of_length_eq_zero (Nat.le_zero.mp hl)
    subst this
    rfl
  | succ n ih =>
    intro l hl hb
    rcases l with _ | ⟨a, l⟩
    · rfl
    rcases l with _ | ⟨b, l⟩
    · have ha : a < 256 := hb a (by simp)
      have h1 : a / 4 < 64 := by omega
      have h2 : a % 4 * 16 < 64 := by omega
      have e : a / 4 * 4 + a % 4 * 16 / 16 = a := by omega
      simp [b64encode, b64decode, decNat_encChar h1, decNat_encChar h2, e]
      omega
    rcases l with _ | ⟨c, rest⟩
    · have ha : a < 256 := hb a (by simp)
      have hbb : b < 256 := hb b (by simp)
      have h1 : a / 4 < 64 := by omega
      have h2 : a % 4 * 16 + b / 16 < 64 := by omega
      have h3 : b % 16 * 4 < 64 := by omega
      have e1 : a / 4 * 4 + (a % 4 * 16 + b / 16) / 16 = a := by omega
      have e2 : (a % 4 * 16 + b / 16) % 16 * 16 + b % 16 * 4 / 4 = b := by omega
      simp [b64encode, b64decode, decNat_encChar h1, decNat_encChar h2, decNat_encChar h3,
        encChar_ne_pad h3, e1, e2]
      omega
    · have ha : a < 256 := hb a (by simp)
      have hbb : b < 256 := hb b (by simp)
      have hc : c < 256 := hb c (by simp)
      have h1 : a / 4 < 64 := by omega
      have h2 : a % 4 * 16 + b / 16 < 64 := by omega
      have h3 : b % 16 * 4 + c / 64 < 64 := by omega
      have h4 : c % 64 < 64 := by omega
      have hrest : b64decode (b64encode rest) = some rest := by
        refine ih rest ?_ ?_
        · simp at hl
          omega
        · intro x hx
          exact hb x (by simp [hx])
      have e1 : a / 4 * 4 + (a % 4 * 16 + b / 16) / 16 = a := by omega
      have e2 : (a % 4 * 16 + b / 16) % 16 * 16 + (b % 16 * 4 + c / 64) / 4 = b := by omega
      have e3 : (b % 16 * 4 + c / 64) % 4 * 64 + c % 64 = c := by omega
      simp [b64encode, b64decode, decNat_encChar h1, decNat_encChar h2, decNat_encChar h3,
        decNat_encChar h4, encChar_ne_pad h3, encChar_ne_pad h4, hrest, e1, e2, e3]

theorem b64_roundtrip {l : List Nat} (hb : ∀ x ∈ l, x < 256) :
    b64decode (b64encode l) = some l :=
  b64_roundtrip_len l.length l (Nat.le_refl _) hb

namespace Client

theorem chunksList_cons (C : Nat) (hC : 0 < C) (l : List Nat) (hl : l ≠ []) :
    chunksList C l = l.take C :: chunksList C (l.drop C) := by
  have hlen : 1 ≤ l.length := List.length_pos.mpr hl
  have htot : ceilDiv l.length C = (l.length - 1) / C + 1 := by
    have h1 : l.length + C - 1 = l.length - 1 + C := by omega
    rw [ceilDiv, h1, Nat.add_div_right _ hC]
  have htail : ceilDiv (l.drop C).length C = (l.length - 1) / C := by
    rw [ceilDiv, List.length_drop]
    rcases Nat.lt_or_ge l.length C with h | h
    · have e1 : l.length - C + C - 1 = C - 1 := by omega
      rw [e1, Nat.div_eq_of_lt (by omega), Nat.div_eq_of_lt (by omega)]
    · have e1 : l.length - C + C - 1 = l.length - 1 := by omega
      rw [e1]
  rw [chunksList, chunksList, htot, htail, List.range_succ_eq_map, List.map_cons,
    List.map_map]
  congr 1
  · simp [sliceChunk]
  · refine List.map_congr_left ?_
    intro i _
    show sliceChunk C l (i + 1) = sliceChunk C (l.drop C) i
    rw [sliceChunk, sliceChunk, List.drop_drop]
    have : C + i * C = (i + 1) * C := by ring
    rw [this]

theorem flatten_chunksList (C : Nat) (hC : 0 < C) :
    ∀ (n : Nat) (l : List Nat), l.length ≤ n → (chunksList C l).flatten = l := by
  intro n
  induction n with
  | zero =>
    intro l hl
    have : l = [] := List.eq_nil_of_length_eq_zero (Nat.le_zero.mp hl)
    subst this
    have h0 : ceilDiv ([] : List Nat).length C = 0 := by
      show (0 + C - 1) / C = 0
      exact Nat.div_eq_of_lt (by omega)
    rw [chunksList, h0]
    rfl
  | succ n ih =>
    intro l hl
    rcases eq_or_ne l [] with h | h
    · subst h
      have h0 : ceilDiv ([] : List Nat).length C = 0 := by
        show (0 + C - 1) / C = 0
        exact Nat.div_eq_of_lt (by omega)
      rw [chunksList, h0]
      rfl
    · rw [chunksList_cons C hC l h, List.flatten_cons]
      have hlen : 0 < l.length := List.length_pos.mpr h
      rw [ih (l.drop C) (by rw [List.length_drop]; omega)]
      exact List.take_append_drop C l

theorem foldl_deliver_length (msgs : List (Nat × List Char)) :
    ∀ slots, (msgs.foldl deliverChunk slots).length = slots.length := by
  induction msgs with
  | nil => intro slots; rfl
  | cons m ms ih =>
    intro slots
    rw [List.foldl_cons, ih]
    simp [deliverChunk]

theorem foldl_deliver_getElem (enc : Nat → List Char) :
    ∀ (msgs : List (Nat × List Char)) (slots : List (Option (List Char))) (j : Nat),
      j < slots.length →
      (∀ m ∈ msgs, m.2 = enc m.1) →
      (j ∈ msgs.map Prod.fst ∨ slots[j]? = some (some (enc j))) →
      (msgs.foldl deliverChunk slots)[j]? = some (some (enc j)) := by
  intro msgs
  induction msgs with
  | nil =>
    intro slots j _ _ hcov
    rcases hcov with h | h
    · simp at h
    · exact h
  | cons m ms ih =>
    intro slots j hj hv hcov
    rw [List.foldl_cons]
    have hlen : j < (deliverChunk slots m).length := by simpa [deliverChunk] using hj
    refine ih (deliverChunk slots m) j hlen
      (fun m' hm' => hv m' (List.mem_cons_of_mem _ hm')) ?_
    by_cases hjm : j = m.1
    · subst hjm
      right
      rw [deliverChunk, List.getElem?_set_eq_of_lt _ hj, hv m (List.mem_cons_self _ _)]
    · rcases hcov with h | h
      · rw [List.map_cons, List.mem_cons] at h
        rcases h with h1 | h2
        · exact absurd h1 hjm
        · left; exact h2
      · right
        rw [deliverChunk, List.getElem?_set_ne (fun hc => hjm hc.symm)]
        exact h

theorem final_slots_eq (file : List Nat) (msgs : List (Nat × List Char))
    (hp : msgs.Perm (sentChunkMsgs file)) :
    msgs.foldl deliverChunk (List.replicate (ceilDiv file.length CHUNK_SIZE) none) =
      (List.range (ceilDiv file.length CHUNK_SIZE)).map
        (fun j => some (b64encode (sliceChunk CHUNK_SIZE file j))) := by
  have hv : ∀ m ∈ msgs, m.2 = b64encode (sliceChunk CHUNK_SIZE file m.1) := by
    intro m hm
    have hms : m ∈ sentChunkMsgs file := hp.mem_iff.mp hm
    rcases List.mem_map.mp hms with ⟨i, _, hmi⟩
    rw [← hmi]
  refine List.ext_getElem? ?_
  intro j
  by_cases hj : j < ceilDiv file.length CHUNK_SIZE
  · have hrhs : ((List.range (ceilDiv file.length CHUNK_SIZE)).map
        (fun j => some (b64encode (sliceChunk CHUNK_SIZE file j))))[j]? =
        some (some (b64encode (sliceChunk CHUNK_SIZE file j))) := by
      simp [List.getElem?_map, List.getElem?_range hj]
    rw [hrhs]
    refine foldl_deliver_getElem (fun i => b64encode (sliceChunk CHUNK_SIZE file i)) msgs (List.replicate (ceilDiv file.length CHUNK_SIZE) none) j (by rw [List.length_replicate]; exact hj) hv ?_
    left
    have hsent : (j, b64encode (sliceChunk CHUNK_SIZE file j)) ∈ sentChunkMsgs file := by
      rw [sentChunkMsgs]
      exact List.mem_map.mpr ⟨j, List.mem_range.mpr hj, rfl⟩
    exact List.mem_map.mpr ⟨_, hp.mem_iff.mpr hsent, rfl⟩
  · have h1 : (msgs.foldl deliverChunk
        (List.replicate (ceilDiv file.length CHUNK_SIZE) none)).length ≤ j := by
      rw [foldl_deliver_length]
      simpa using Nat.le_of_not_lt hj
    have h2 : ((List.range (ceilDiv file.length CHUNK_SIZE)).map
        (fun j => some (b64encode (sliceChunk CHUNK_SIZE file j)))).length ≤ j := by
      simpa using Nat.le_of_not_lt hj
    rw [List.getElem?_eq_none h1, List.getElem?_eq_none h2]

theorem sliceChunk_ne_nil (file : List Nat) (j : Nat)
    (hj : j < ceilDiv file.length CHUNK_SIZE) : sliceChunk CHUNK_SIZE file j ≠ [] := by
  have hlt : j * CHUNK_SIZE < file.length := by
    rw [ceilDiv, show CHUNK_SIZE = 1048576 from rfl] at hj
    rw [show CHUNK_SIZE = 1048576 from rfl]
    omega
  intro hnil
  have : (sliceChunk CHUNK_SIZE file j).length = 0 := by rw [hnil]; rfl
  rw [sliceChunk, List.length_take, List.length_drop] at this
  have hC : (0:Nat) < CHUNK_SIZE := by norm_num [CHUNK_SIZE]
  omega

theorem decodeAll_map_encode :
    ∀ (cs : List (List Nat)), (∀ c ∈ cs, ∀ x ∈ c, x < 256) →
      decodeAll (cs.map (fun c => some (b64encode c))) = some cs := by
  intro cs
  induction cs with
  | nil => intro _; rfl
  | cons c t ih =>
    intro h
    have hc : b64decode (b64encode c) = some c :=
      b64_roundtrip (fun x hx => h c (List.mem_cons_self _ _) x hx)
    have ht : decodeAll (t.map (fun c => some (b64encode c))) = some t :=
      ih (fun c' hc' => h c' (List.mem_cons_of_mem _ hc'))
    rw [List.map_cons]
    show decodeAll (some (b64encode c) :: t.map (fun c => some (b64encode c))) = _
    simp only [decodeAll, hc, ht]

/-- **C1.**  A file of any size, split by `uploadFile` into fixed-size 1 MiB
chunks (each base64-encoded independently) and delivered to `handleFileChunk`
in any arrival order, reassembles to a byte buffer identical to the original. -/
theorem chunk_roundtrip (file : List Nat) (hb : ∀ b ∈ file, b < 256)
    (msgs : List (Nat × List Char)) (hp : msgs.Perm (sentChunkMsgs file)) :
    reassemble (ceilDiv file.length CHUNK_SIZE) msgs = some file := by
  have hC : (0:Nat) < CHUNK_SIZE := by norm_num [CHUNK_SIZE]
  have hslots := final_slots_eq file msgs hp
  have hcs : ∀ c ∈ chunksList CHUNK_SIZE file, ∀ x ∈ c, x < 256 := by
    intro c hc x hx
    rcases List.mem_map.mp hc with ⟨i, _, hci⟩
    have hsub : x ∈ file := by
      rw [← hci] at hx
      rw [sliceChunk] at hx
      exact (List.drop_sublist _ _).subset ((List.take_sublist _ _).subset hx)
    exact hb x hsub
  have hmapeq : (List.range (ceilDiv file.length CHUNK_SIZE)).map
      (fun j => some (b64encode (sliceChunk CHUNK_SIZE file j))) =
      (chunksList CHUNK_SIZE file).map (fun c => some (b64encode c)) := by
    rw [chunksList, List.map_map]
    rfl
  have hfil : (((List.range (ceilDiv file.length CHUNK_SIZE)).map
      (fun j => some (b64encode (sliceChunk CHUNK_SIZE file j)))).filter isFilled).length =
      ceilDiv file.length CHUNK_SIZE := by
    rw [List.filter_eq_self.mpr]
    · simp
    · intro a ha
      rcases List.mem_map.mp ha with ⟨j, hj, haj⟩
      rw [← haj]
      have hne : b64encode (sliceChunk CHUNK_SIZE file j) ≠ [] :=
        b64encode_ne_nil (sliceChunk_ne_nil file j (List.mem_range.mp hj))
      simp [isFilled, List.isEmpty_iff, hne]
  rw [reassemble]
  simp only [hslots]
  rw [if_pos hfil, hmapeq, decodeAll_map_encode _ hcs, Option.map]
  rw [flatten_chunksList CHUNK_SIZE hC file.length file (Nat.le_refl _)]

end Client

namespace E2ee

theorem deriveSharedSecret_comm (a b : Nat) :
    deriveSharedSecret a (pubOf b) = deriveSharedSecret b (pubOf a) := by
  rw [deriveSharedSecret, deriveSharedSecret, pubOf, pubOf, ← Nat.pow_mod, ← Nat.pow_mod,
    ← pow_mul, ← pow_mul, Nat.mul_comm]

theorem deriveSharedSecret_lt (priv pub : Nat) : deriveSharedSecret priv pub < 65536 :=
  Nat.lt_of_lt_of_le (Nat.mod_lt _ (by norm_num [P])) (by norm_num [P])

theorem gcmEncBytes_length (key : Nat) :
    ∀ (i : Nat) (m : List Nat), (gcmEncBytes key i m).length = m.length := by
  intro i m
  induction m generalizing i with
  | nil => rfl
  | cons b t ih => simp [gcmEncBytes, ih]

theorem gcmEncBytes_lt (key : Nat) :
    ∀ (i : Nat) (m : List Nat), ∀ x ∈ gcmEncBytes key i m, x < 256 := by
  intro i m
  induction m generalizing i with
  | nil => simp [gcmEncBytes]
  | cons b t ih =>
    intro x hx
    rw [gcmEncBytes] at hx
    rcases List.mem_cons.mp hx with h | h
    · subst h
      exact Nat.mod_lt _ (by norm_num)
    · exact ih (i + 1) x h

theorem gcmTag_length (key : Nat) (nonce payload : List Nat) :
    (gcmTag key nonce payload).length = 16 := rfl

theorem gcmTag_lt (key : Nat) (hk : key < 65536) (nonce payload : List Nat) :
    ∀ x ∈ gcmTag key nonce payload, x < 256 := by
  intro x hx
  rw [gcmTag] at hx
  rcases List.mem_cons.mp hx with h | hx
  · subst h; exact Nat.mod_lt _ (by norm_num)
  rcases List.mem_cons.mp hx with h | hx
  · subst h; omega
  rcases List.mem_cons.mp hx with h | hx
  · subst h; exact Nat.mod_lt _ (by norm_num)
  rcases List.mem_cons.mp hx with h | hx
  · subst h; exact Nat.mod_lt _ (by norm_num)
  · have := List.eq_of_mem_replicate hx
    omega

theorem gcmDecBytes_gcmEncBytes (key : Nat) :
    ∀ (i : Nat) (m : List Nat), (∀ x ∈ m, x < 256) →
      gcmDecBytes key i (gcmEncBytes key i m) = m := by
  intro i m
  induction m generalizing i with
  | nil => intro _; rfl
  | cons b t ih =>
    intro h
    rw [gcmEncBytes, gcmDecBytes, ih (i + 1) (fun x hx => h x (List.mem_cons_of_mem _ hx))]
    have hb : b < 256 := h b (List.mem_cons_self _ _)
    have hk : ks key i < 256 := Nat.mod_lt _ (by norm_num)
    congr 1
    omega

theorem gcmDecrypt_gcmEncrypt (key : Nat) (nonce m : List Nat)
    (hm : ∀ x ∈ m, x < 256) : gcmDecrypt key nonce (gcmEncrypt key nonce m) = some m := by
  rw [gcmEncrypt, gcmDecrypt]
  have hlen : (gcmEncBytes key 0 m ++ gcmTag key nonce (gcmEncBytes key 0 m)).length =
      m.length + 16 := by
    rw [List.length_append, gcmEncBytes_length, gcmTag_length]
  rw [hlen]
  have he : m.length + 16 - 16 = (gcmEncBytes key 0 m).length := by
    rw [gcmEncBytes_length]; omega
  rw [if_neg (by omega), he, List.take_left, List.drop_left, if_pos rfl,
    gcmDecBytes_gcmEncBytes key 0 m hm]

theorem gcmDecrypt_wrong_key (key key' : Nat)
    (hne : key' ≠ key) (nonce m : List Nat) :
    gcmDecrypt key' nonce (gcmEncrypt key nonce m) = none := by
  rw [gcmEncrypt, gcmDecrypt]
  have hlen : (gcmEncBytes key 0 m ++ gcmTag key nonce (gcmEncBytes key 0 m)).length =
      m.length + 16 := by
    rw [List.length_append, gcmEncBytes_length, gcmTag_length]
  rw [hlen]
  have he : m.length + 16 - 16 = (gcmEncBytes key 0 m).length := by
    rw [gcmEncBytes_length]; omega
  rw [if_neg (by omega), he, List.take_left, List.drop_left, if_neg]
  intro heq
  rw [gcmTag, gcmTag] at heq
  have h1 : key % 256 = key' % 256 := by
    have := congrArg (fun l => l.headI) heq
    simpa using this
  have h2 : key / 256 = key' / 256 := by
    have := congrArg (fun l => l.tail.headI) heq
    simpa using this
  omega

theorem encryptFor_bytes_lt (data : List Nat) (a pub : Nat) (iv : List Nat)
    (hm : ∀ x ∈ data, x < 256) (hivb : ∀ x ∈ iv, x < 256) :
    ∀ x ∈ iv ++ gcmEncrypt (deriveSharedSecret a pub) iv data, x < 256 := by
  intro x hx
  rcases List.mem_append.mp hx with h | h
  · exact hivb x h
  · rw [gcmEncrypt] at h
    rcases List.mem_append.mp h with h' | h'
    · exact gcmEncBytes_lt _ 0 data x h'
    · exact gcmTag_lt _ (deriveSharedSecret_lt a pub) _ _ x h'

/-- **C2.**  For every plaintext and every pair of key pairs,
`decryptFrom(encryptFor(m, ownPriv, peerPub), peerPriv, ownPub)` returns `m`:
both sides derive the same ECDH shared secret, and the 12-byte nonce prepended
by encryption is split off and reused by decryption. -/
theorem encrypt_decrypt_roundtrip (m : List Nat) (a b : Nat) (iv : List Nat)
    (hm : ∀ x ∈ m, x < 256) (hiv : iv.length = 12) (hivb : ∀ x ∈ iv, x < 256) :
    decryptFrom (encryptFor m a (pubOf b) iv) b (pubOf a) = some m := by
  rw [decryptFrom, decryptFromBody, encryptFor,
    b64_roundtrip (encryptFor_bytes_lt m a (pubOf b) iv hm hivb)]
  have htake : (iv ++ gcmEncrypt (deriveSharedSecret a (pubOf b)) iv m).take 12 = iv := by
    rw [← hiv]
    exact List.take_left iv _
  have hdrop : (iv ++ gcmEncrypt (deriveSharedSecret a (pubOf b)) iv m).drop 12 =
      gcmEncrypt (deriveSharedSecret a (pubOf b)) iv m := by
    rw [← hiv]
    exact List.drop_left iv _
  simp only [htake, hdrop, deriveSharedSecret_comm b a,
    gcmDecrypt_gcmEncrypt (deriveSharedSecret a (pubOf b)) iv m hm]

/-- **C2 witness.** -/
theorem encrypt_decrypt_roundtrip_witness :
    decryptFrom (encryptFor [104, 105] 3 (pubOf 5) (List.replicate 12 7)) 5 (pubOf 3) =
      some [104, 105] :=
  encrypt_decrypt_roundtrip [104, 105] 3 5 (List.replicate 12 7) (by decide) (by decide)
    (by decide)

end E2ee

/-- **C9.**  The client decryption functions are total and give back a null
result on every failure path: invalid base64, truncated ciphertext, any thrown
error of the body, a mismatched key pair, a mismatched password — never an
exception to the caller. -/
theorem decrypt_failure_never_throws :
    (∀ (s : List Char) (a b : Nat), b64decode s = none → E2ee.decryptFrom s a b = none) ∧
    (∀ (s : List Char) (a b : Nat) (e : String),
      E2ee.decryptFromBody s a b = Except.error e → E2ee.decryptFrom s a b = none) ∧
    (∀ (s : List Char) (a b : Nat) (bytes : List Nat),
      b64decode s = some bytes → bytes.length < 28 → E2ee.decryptFrom s a b = none) ∧
    (∀ (m iv : List Nat) (a b x y : Nat), iv.length = 12 →
      (∀ v ∈ m, v < 256) → (∀ v ∈ iv, v < 256) →
      E2ee.deriveSharedSecret x (E2ee.pubOf y) ≠ E2ee.deriveSharedSecret a (E2ee.pubOf b) →
      E2ee.decryptFrom (E2ee.encryptFor m a (E2ee.pubOf b) iv) x (E2ee.pubOf y) = none) ∧
    (∀ (d : List Char) (pw pw' : String), pw' ≠ pw →
      CryptoTs.decryptData (CryptoTs.encryptData d pw) pw' = none) := by
  refine ⟨?_, ?_, ?_, ?_, ?_⟩
  · intro s a b h
    rw [E2ee.decryptFrom, E2ee.decryptFromBody, h]
  · intro s a b e h
    rw [E2ee.decryptFrom, h]
  · intro s a b bytes h hlen
    rw [E2ee.decryptFrom, E2ee.decryptFromBody, h]
    have hgd : E2ee.gcmDecrypt (E2ee.deriveSharedSecret a b) (bytes.take 12)
        (bytes.drop 12) = none := by
      rw [E2ee.gcmDecrypt, if_pos]
      rw [List.length_drop]
      omega
    simp only [hgd]
  · intro m iv a b x y hiv hm hivb hne
    rw [E2ee.decryptFrom, E2ee.decryptFromBody, E2ee.encryptFor,
      b64_roundtrip (E2ee.encryptFor_bytes_lt m a (E2ee.pubOf b) iv hm hivb)]
    have htake : (iv ++ E2ee.gcmEncrypt (E2ee.deriveSharedSecret a (E2ee.pubOf b)) iv m).take 12
        = iv := by
      rw [← hiv]
      exact List.take_left iv _
    have hdrop : (iv ++ E2ee.gcmEncrypt (E2ee.deriveSharedSecret a (E2ee.pubOf b)) iv m).drop 12
        = E2ee.gcmEncrypt (E2ee.deriveSharedSecret a (E2ee.pubOf b)) iv m := by
      rw [← hiv]
      exact List.drop_left iv _
    simp only [htake, hdrop,
      E2ee.gcmDecrypt_wrong_key (E2ee.deriveSharedSecret a (E2ee.pubOf b))
        (E2ee.deriveSharedSecret x (E2ee.pubOf y)) hne iv m]
  · intro d pw pw' hne
    rw [CryptoTs.decryptData, CryptoTs.encryptData]
    exact if_neg (fun hc => hne hc.symm)

/-- **C9 witness**: concrete failures — a non-base64 ciphertext, a decryption
with mismatched keys, and a mismatched password. -/
theorem decrypt_failure_never_throws_witness :
    E2ee.decryptFrom ['!'] 1 2 = none ∧
    E2ee.decryptFrom (E2ee.encryptFor [5] 3 (E2ee.pubOf 5) (List.replicate 12 0)) 4
      (E2ee.pubOf 3) = none ∧
    CryptoTs.decryptData (CryptoTs.encryptData ['h'] "pw1") "pw2" = none :=
  ⟨decrypt_failure_never_throws.1 ['!'] 1 2 (by decide),
   decrypt_failure_never_throws.2.2.2.1 [5] (List.replicate 12 0) 3 5 4 3 (by decide)
     (by decide) (by decide) (by decide),
   decrypt_failure_never_throws.2.2.2.2 ['h'] "pw1" "pw2" (by decide)⟩

/-- **C1 witness**: a concrete two-byte file round-trips. -/
theorem chunk_roundtrip_witness :
    Client.reassemble (Client.ceilDiv ([72, 105] : List Nat).length Client.CHUNK_SIZE)
      (Client.sentChunkMsgs [72, 105]) = some [72, 105] :=
  Client.chunk_roundtrip [72, 105] (by decide) (Client.sentChunkMsgs [72, 105])
    (List.Perm.refl _)

namespace Server

theorem mem_broadcastToRoom {st : ServerState} {rid : String} {msg : SMsg}
    {excl : Option String} {d : String × SMsg}
    (h : d ∈ broadcastToRoom st rid msg excl) :
    d.2 = msg ∧ some d.1 ≠ excl ∧ connOpen st d.1 = true ∧
      ∃ room, aget st.rooms rid = some room ∧ ∃ pk, (d.1, pk) ∈ room.clients := by
  rw [broadcastToRoom] at h
  rcases hrm : aget st.rooms rid with _ | room
  · rw [hrm] at h
    simp at h
  · rw [hrm] at h
    rcases List.mem_filterMap.mp h with ⟨p, hp, hfp⟩
    by_cases hc : some p.1 ≠ excl ∧ connOpen st p.1 = true
    · rw [if_pos hc] at hfp
      have h' : (p.1, msg) = d := Option.some.inj hfp
      subst h'
      exact ⟨rfl, hc.1, hc.2, room, rfl, p.2, by simpa using hp⟩
    · rw [if_neg hc] at hfp
      exact absurd hfp (by simp)

theorem broadcastToRoom_mem {st : ServerState} {rid : String} {msg : SMsg}
    {excl : Option String} {room : Room} {cid : String} {pk : Option String}
    (hroom : aget st.rooms rid = some room) (hmem : (cid, pk) ∈ room.clients)
    (hopen : connOpen st cid = true) (hne : some cid ≠ excl) :
    (cid, msg) ∈ broadcastToRoom st rid msg excl := by
  rw [broadcastToRoom, hroom]
  exact List.mem_filterMap.mpr ⟨(cid, pk), hmem, if_pos ⟨hne, hopen⟩⟩

end Server

/-- **C3.**  `broadcastToRoom` delivers the serialized payload to exactly the
currently-open member connections other than the excluded one, and the
clipboard / file-chunk relay paths never deliver a relayed message back to its
sender. -/
theorem broadcast_excludes_sender :
    (∀ (st : Server.ServerState) (rid : String) (msg : Server.SMsg) (excl : Option String),
      (∀ d ∈ Server.broadcastToRoom st rid msg excl,
        d.2 = msg ∧ some d.1 ≠ excl ∧ Server.connOpen st d.1 = true ∧
          ∃ room, aget st.rooms rid = some room ∧ ∃ pk, (d.1, pk) ∈ room.clients) ∧
      (∀ (room : Server.Room) (cid : String) (pk : Option String),
        aget st.rooms rid = some room → (cid, pk) ∈ room.clients →
        Server.connOpen st cid = true → some cid ≠ excl →
        (cid, msg) ∈ Server.broadcastToRoom st rid msg excl)) ∧
    (∀ (st : Server.ServerState) (cid : String) (d : Server.ClipData) (now : Nat),
      ∀ q ∈ (Server.handleClipboard st cid d now).2,
        Server.isRelay q.2 = true → q.1 ≠ cid) ∧
    (∀ (st : Server.ServerState) (cid : String) (d : Server.ChunkData) (now : Nat),
      ∀ q ∈ (Server.handleFileChunk st cid d now).2,
        Server.isRelay q.2 = true → q.1 ≠ cid) := by
  refine ⟨fun st rid msg excl => ⟨fun d hd => Server.mem_broadcastToRoom hd,
    fun room cid pk h1 h2 h3 h4 => Server.broadcastToRoom_mem h1 h2 h3 h4⟩, ?_, ?_⟩
  · intro st cid d now q hq hrel
    rcases hcr : Server.connRoom st cid with _ | rid
    · simp only [Server.handleClipboard, hcr] at hq
      rw [Server.sendTo] at hq
      split at hq
      · simp at hq
        rw [hq] at hrel
        simp [Server.isRelay] at hrel
      · simp at hq
    · rcases hrm : aget st.rooms rid with _ | room
      · simp only [Server.handleClipboard, hcr, hrm] at hq
        simp at hq
      · simp only [Server.handleClipboard, hcr, hrm] at hq
        have h := Server.mem_broadcastToRoom hq
        intro hc
        exact h.2.1 (by rw [hc])
  · intro st cid d now q hq hrel
    rcases hcr : Server.connRoom st cid with _ | rid
    · simp only [Server.handleFileChunk, hcr] at hq
      rw [Server.sendTo] at hq
      split at hq
      · simp at hq
        rw [hq] at hrel
        simp [Server.isRelay] at hrel
      · simp at hq
    · rcases hvc : Server.validateFileChunk d with _ | code
      · rcases hrm : aget st.rooms rid with _ | room
        · simp only [Server.handleFileChunk, hcr, hvc, hrm] at hq
          simp at hq
        · simp only [Server.handleFileChunk, hcr, hvc, hrm] at hq
          have h := Server.mem_broadcastToRoom hq
          intro hc
          exact h.2.1 (by rw [hc])
      · simp only [Server.handleFileChunk, hcr, hvc] at hq
        rw [Server.sendTo] at hq
        split at hq
        · simp at hq
          rw [hq] at hrel
          simp [Server.isRelay] at hrel
        · simp at hq

namespace Server

theorem addTransfer_spec (ts : List (String × List String)) (cid f : String) :
    ∃ s, aget (addTransfer ts cid f) cid = some s ∧ f ∈ s := by
  rw [addTransfer]
  rcases h : aget ts cid with _ | s
  · exact ⟨[f], aget_aset_self _ _ _, by simp⟩
  · refine ⟨if f ∈ s then s else s ++ [f], aget_aset_self _ _ _, ?_⟩
    by_cases hf : f ∈ s
    · simp [hf]
    · simp [hf]

theorem removeTransfer_spec (ts : List (String × List String)) (cid f : String)
    (hnd : keysNodup ts) :
    ∀ s, aget (removeTransfer ts cid f) cid = some s → f ∉ s := by
  intro s hs
  rcases h : aget ts cid with _ | s0
  · simp only [removeTransfer, h] at hs
    simp at hs
  · simp only [removeTransfer, h] at hs
    by_cases he : s0.filter (fun g => g ≠ f) = []
    · rw [if_pos he, aget_adel_self cid hnd] at hs
      simp at hs
    · rw [if_neg he, aget_aset_self] at hs
      have hseq : s = s0.filter (fun g => g ≠ f) := (Option.some.inj hs).symm
      subst hseq
      intro hf
      have := List.of_mem_filter hf
      simp at this

end Server

/-- **C4 counterexample.**  A connection's *first* message carrying a fileId
can be a `file-chunk`; the relay relays it but records nothing in
`activeTransfers`, contradicting the claim that the first message carrying a
fileId — "whether a clipboard/file-start announcement or a file-chunk" —
causes `(connectionId → fileId)` to be recorded. -/
theorem fileChunk_first_message_not_recorded :
    Server.validateFileChunk chunkMsg1 = none ∧
    (aget wsState0.rooms "ROOMA1").map (fun r => r.activeTransfers) = some [] ∧
    (aget (Server.handleFileChunk wsState0 "A" chunkMsg1 5).1.rooms "ROOMA1").map
      (fun r => aget r.activeTransfers "A") = some none := by
  decide

/-- **C4 (amended).**  A clipboard or file-start announcement carrying a fileId
records `(connectionId → fileId)` in the room's `activeTransfers` (a chunk
alone never does); every valid chunk is relayed to the rest of the room
stamped with `senderId`; and the chunk with `chunkIndex == totalChunks - 1`
removes that fileId from the connection's tracked set. -/
theorem transfer_tracking_amended :
    (∀ (st : Server.ServerState) (cid rid : String) (d : Server.ClipData) (now : Nat)
      (room : Server.Room) (f : String),
      Server.connRoom st cid = some rid → aget st.rooms rid = some room →
      d.fileId = some f → f ≠ "" →
      ∃ room', aget (Server.handleClipboard st cid d now).1.rooms rid = some room' ∧
        ∃ s, aget room'.activeTransfers cid = some s ∧ f ∈ s) ∧
    (∀ (st : Server.ServerState) (cid rid : String) (d : Server.FileStartData) (now : Nat)
      (room : Server.Room) (f : String),
      Server.connRoom st cid = some rid → aget st.rooms rid = some room →
      Server.validateFileStart d = none → d.fileId = some f →
      ∃ room', aget (Server.handleFileStart st cid d now).1.rooms rid = some room' ∧
        ∃ s, aget room'.activeTransfers cid = some s ∧ f ∈ s) ∧
    (∀ (st : Server.ServerState) (cid rid : String) (d : Server.ChunkData) (now : Nat)
      (room : Server.Room),
      Server.connRoom st cid = some rid → aget st.rooms rid = some room →
      Server.validateFileChunk d = none →
      (∀ q pk, (q, pk) ∈ room.clients → Server.connOpen st q = true → q ≠ cid →
        (q, Server.SMsg.chunkRelay d cid) ∈ (Server.handleFileChunk st cid d now).2) ∧
      (∀ q ∈ (Server.handleFileChunk st cid d now).2, q.2 = Server.SMsg.chunkRelay d cid)) ∧
    (∀ (st : Server.ServerState) (cid rid : String) (d : Server.ChunkData) (now : Nat)
      (room : Server.Room) (f : String),
      Server.connRoom st cid = some rid → aget st.rooms rid = some room →
      Server.validateFileChunk d = none → d.fileId = some f →
      d.chunkIndex = some (d.totalChunks.getD 0 - 1) →
      keysNodup room.activeTransfers →
      ∃ room', aget (Server.handleFileChunk st cid d now).1.rooms rid = some room' ∧
        ∀ s, aget room'.activeTransfers cid = some s → f ∉ s) := by
  refine ⟨?_, ?_, ?_, ?_⟩
  · intro st cid rid d now room f hcr hrm hfid hne
    simp only [Server.handleClipboard, hcr, hrm, hfid, if_neg hne]
    exact ⟨_, aget_aset_self _ _ _, Server.addTransfer_spec room.activeTransfers cid f⟩
  · intro st cid rid d now room f hcr hrm hval hfid
    simp only [Server.handleFileStart, hcr, hrm, hval, hfid]
    refine ⟨_, aget_aset_self _ _ _, ?_⟩
    have := Server.addTransfer_spec room.activeTransfers cid (Option.getD (some f) "")
    simpa using this
  · intro st cid rid d now room hcr hrm hval
    constructor
    · intro q pk hq hopen hne
      simp only [Server.handleFileChunk, hcr, hrm, hval]
      exact Server.broadcastToRoom_mem (aget_aset_self _ _ _) hq hopen
        (fun hc => hne (Option.some.inj hc))
    · intro q hq
      simp only [Server.handleFileChunk, hcr, hrm, hval] at hq
      exact (Server.mem_broadcastToRoom hq).1
  · intro st cid rid d now room f hcr hrm hval hfid hlast hnd
    simp only [Server.handleFileChunk, hcr, hrm, hval, if_pos hlast, hfid, Option.getD_some]
    exact ⟨_, aget_aset_self _ _ _,
      Server.removeTransfer_spec room.activeTransfers cid f hnd⟩

namespace Server

theorem handleLeave_eq (st : ServerState) (cid : String) (now : Nat) (rid : String)
    (room : Room) (hcr : connRoom st cid = some rid)
    (hrm : aget st.rooms rid = some room)
    (hmem : (aget room.clients cid).isSome = true) :
    handleLeave st cid now =
      (if (adel room.clients cid).isEmpty then
        (⟨adel st.rooms rid, setConnRoom st.conns cid none⟩,
          (((aget room.activeTransfers cid).getD []).map (fun f =>
            broadcastToRoom ⟨aset st.rooms rid
              ⟨adel room.clients cid, now, adel room.activeTransfers cid⟩, st.conns⟩ rid
              (SMsg.fileCancel f cid) none)).flatten)
      else
        (⟨aset st.rooms rid ⟨adel room.clients cid, now, adel room.activeTransfers cid⟩,
            setConnRoom st.conns cid none⟩,
          (((aget room.activeTransfers cid).getD []).map (fun f =>
            broadcastToRoom ⟨aset st.rooms rid
              ⟨adel room.clients cid, now, adel room.activeTransfers cid⟩, st.conns⟩ rid
              (SMsg.fileCancel f cid) none)).flatten ++
          broadcastToRoom ⟨aset st.rooms rid
              ⟨adel room.clients cid, now, adel room.activeTransfers cid⟩, st.conns⟩ rid
            (SMsg.roomUpdate rid (adel room.clients cid) (adel room.clients cid).length none)
            none)) := by
  simp only [handleLeave, hcr, hrm]
  rw [if_neg (by simp [hmem])]

end Server

/-- **C6.**  For every connection leaving a room — explicit `leave`, socket
close, or heartbeat termination — the member is removed, a `file-cancel`
carrying each of its in-flight fileIds and its sender id is broadcast to every
remaining open member, its tracking entry is cleared, and then the room is
deleted when empty or the updated roster is broadcast to the remaining open
members. -/
theorem leave_cleanup_spec (st : Server.ServerState) (cid rid : String)
    (room : Server.Room) (now : Nat)
    (hroomsND : keysNodup st.rooms)
    (hcr : Server.connRoom st cid = some rid)
    (hrm : aget st.rooms rid = some room)
    (hmem : (aget room.clients cid).isSome = true)
    (hclND : keysNodup room.clients)
    (htrND : keysNodup room.activeTransfers) :
    (∀ room', aget (Server.handleLeave st cid now).1.rooms rid = some room' →
      aget room'.clients cid = none ∧ aget room'.activeTransfers cid = none) ∧
    (∀ f ∈ (aget room.activeTransfers cid).getD [], ∀ q pk,
      (q, pk) ∈ adel room.clients cid → Server.connOpen st q = true →
      (q, Server.SMsg.fileCancel f cid) ∈ (Server.handleLeave st cid now).2) ∧
    (adel room.clients cid = [] → aget (Server.handleLeave st cid now).1.rooms rid = none) ∧
    (adel room.clients cid ≠ [] →
      aget (Server.handleLeave st cid now).1.rooms rid =
        some ⟨adel room.clients cid, now, adel room.activeTransfers cid⟩ ∧
      ∀ q pk, (q, pk) ∈ adel room.clients cid → Server.connOpen st q = true →
        (q, Server.SMsg.roomUpdate rid (adel room.clients cid)
          (adel room.clients cid).length none) ∈ (Server.handleLeave st cid now).2) ∧
    ((Server.disconnect st cid now).1.rooms = (Server.handleLeave st cid now).1.rooms ∧
      (Server.disconnect st cid now).2 = (Server.handleLeave st cid now).2) := by
  refine ?_
  have hdisc1 : (Server.disconnect st cid now).1.rooms =
      (Server.handleLeave st cid now).1.rooms := rfl
  have hdisc2 : (Server.disconnect st cid now).2 = (Server.handleLeave st cid now).2 := rfl
  refine ?hmain
  rw [Server.handleLeave_eq st cid now rid room hcr hrm hmem] at hdisc1 hdisc2 ⊢
  have hcancel : ∀ f ∈ (aget room.activeTransfers cid).getD [], ∀ q pk,
      (q, pk) ∈ adel room.clients cid → Server.connOpen st q = true →
      (q, Server.SMsg.fileCancel f cid) ∈
        (((aget room.activeTransfers cid).getD []).map (fun f =>
          Server.broadcastToRoom ⟨aset st.rooms rid
            ⟨adel room.clients cid, now, adel room.activeTransfers cid⟩, st.conns⟩ rid
            (Server.SMsg.fileCancel f cid) none)).flatten := by
    intro f hf q pk hq hopen
    refine List.mem_flatten.mpr ⟨_, List.mem_map.mpr ⟨f, hf, rfl⟩, ?_⟩
    exact Server.broadcastToRoom_mem (aget_aset_self _ _ _) hq hopen (by simp)
  by_cases hempty : (adel room.clients cid).isEmpty
  · rw [if_pos hempty] at hdisc1 hdisc2 ⊢
    have hnil : adel room.clients cid = [] := List.isEmpty_iff.mp hempty
    refine ⟨?_, ?_, ?_, ?_, hdisc1, hdisc2⟩
    · intro room' hroom'
      rw [aget_adel_self rid hroomsND] at hroom'
      simp at hroom'
    · intro f hf q pk hq hopen
      rw [hnil] at hq
      simp at hq
    · intro _
      exact aget_adel_self rid hroomsND
    · intro hne
      exact absurd hnil hne
  · rw [if_neg hempty] at hdisc1 hdisc2 ⊢
    have hne : adel room.clients cid ≠ [] := fun hc => hempty (by simp [hc])
    refine ⟨?_, ?_, ?_, ?_, hdisc1, hdisc2⟩
    · intro room' hroom'
      rw [aget_aset_self] at hroom'
      have := Option.some.inj hroom'
      subst this
      exact ⟨aget_adel_self cid hclND, aget_adel_self cid htrND⟩
    · intro f hf q pk hq hopen
      exact List.mem_append_left _ (hcancel f hf q pk hq hopen)
    · intro hc
      exact absurd hc hne
    · intro _
      refine ⟨aget_aset_self _ _ _, ?_⟩
      intro q pk hq hopen
      refine List.mem_append_right _ ?_
      exact Server.broadcastToRoom_mem (aget_aset_self _ _ _) hq hopen (by simp)

/-- **C7 counterexample.**  The empty string is a supplied room id that is not
6 alphanumeric characters, yet the relay replies `ROOM_ID_REQUIRED` (the id is
falsy), not `INVALID_ROOM_ID` as the claim states. -/
theorem empty_roomid_gets_required :
    Server.isValid6 "" = false ∧
    (Server.handleJoin wsStateA "A" (some "") none 0).2 =
      [("A", Server.SMsg.error "ROOM_ID_REQUIRED")] ∧
    (Server.handleJoin wsStateA "A" (some "") none 0).2 ≠
      [("A", Server.SMsg.error "INVALID_ROOM_ID")] := by
  decide

/-- **C7 (amended).**  A missing or empty room id is answered with
`ROOM_ID_REQUIRED`, any other string that is not exactly 6 alphanumeric
characters with `INVALID_ROOM_ID` — in both cases without touching any state;
a valid id is canonicalized to uppercase before lookup; and after a create
followed by a lowercase join of the same id, both members receive a
`room-update` with member count 2. -/
theorem join_validation_amended :
    (∀ (st : Server.ServerState) (cid : String) (pk : Option String) (now : Nat),
      Server.handleJoin st cid none pk now =
        (st, Server.sendTo st cid (Server.SMsg.error "ROOM_ID_REQUIRED"))) ∧
    (∀ (st : Server.ServerState) (cid : String) (pk : Option String) (now : Nat),
      Server.handleJoin st cid (some "") pk now =
        (st, Server.sendTo st cid (Server.SMsg.error "ROOM_ID_REQUIRED"))) ∧
    (∀ (st : Server.ServerState) (cid s : String) (pk : Option String) (now : Nat),
      s ≠ "" → Server.isValid6 s = false →
      Server.handleJoin st cid (some s) pk now =
        (st, Server.sendTo st cid (Server.SMsg.error "INVALID_ROOM_ID"))) ∧
    (∀ (st : Server.ServerState) (cid s : String) (pk : Option String) (now : Nat)
      (ci : Server.ConnInfo),
      Server.isValid6 s = true →
      aget st.conns cid = some ci → ci.roomId = none →
      (∀ room, aget st.rooms (Server.upperStr s) = some room →
        room.clients.length < Server.MAX_ROOM_SIZE) →
      Server.connRoom (Server.handleJoin st cid (some s) pk now).1 cid =
        some (Server.upperStr s) ∧
      ∃ room', aget (Server.handleJoin st cid (some s) pk now).1.rooms
          (Server.upperStr s) = some room' ∧ aget room'.clients cid = some pk) ∧
    ((("A", Server.SMsg.roomUpdate "AB12C3" [("A", none), ("B", none)] 2 none) ∈
        (Server.handleJoin (Server.handleCreate wsStateAB "A" none "AB12C3" 0).1
          "B" (some "ab12c3") none 1).2) ∧
      (("B", Server.SMsg.roomUpdate "AB12C3" [("A", none), ("B", none)] 2 none) ∈
        (Server.handleJoin (Server.handleCreate wsStateAB "A" none "AB12C3" 0).1
          "B" (some "ab12c3") none 1).2)) := by
  refine ⟨?_, ?_, ?_, ?_, by decide⟩
  · intro st cid pk now
    simp [Server.handleJoin, Server.validateRoomId]
  · intro st cid pk now
    simp [Server.handleJoin, Server.validateRoomId]
  · intro st cid s pk now hne hval
    simp [Server.handleJoin, Server.validateRoomId, hne, hval]
  · intro st cid s pk now ci hval hconn hroomid hfull
    have hsne : ¬ s = "" := by
      intro hc
      subst hc
      rw [Server.isValid6] at hval
      simp at hval
    have hcr : Server.connRoom st cid = none := by
      rw [Server.connRoom, hconn]
      exact hroomid
    simp only [Server.handleJoin, Server.joinCore, Server.validateRoomId, if_neg hsne, hval,
      if_true, Option.getD_some, hcr]
    rcases hr : aget st.rooms (Server.upperStr s) with _ | room
    · simp only [hr, aget_aset_self]
      rw [if_neg (by simp [Server.MAX_ROOM_SIZE])]
      constructor
      · rw [Server.connRoom, Server.setConnRoom, hconn, aget_aset_self]
      · exact ⟨_, aget_aset_self _ _ _, aget_aset_self _ _ _⟩
    · simp only [hr]
      rw [if_neg (by simpa using Nat.not_le.mpr (hfull room hr))]
      constructor
      · rw [Server.connRoom, Server.setConnRoom, hconn, aget_aset_self]
      · exact ⟨_, aget_aset_self _ _ _, aget_aset_self _ _ _⟩

namespace Server

theorem rlRun_window (cid : String) :
    ∀ (ts : List Nat) (k rt : Nat) (counters : List (String × (Nat × Nat))),
      aget counters cid = some (k, rt) → (∀ t ∈ ts, t ≤ rt) →
      rlRun counters cid ts =
        (List.range ts.length).map (fun i => decide (k + i + 1 ≤ MESSAGE_RATE_LIMIT)) := by
  intro ts
  induction ts with
  | nil => intro k rt counters _ _; rfl
  | cons t ts ih =>
    intro k rt counters hget hts
    have hnot : ¬ t > rt := by
      have := hts t (List.mem_cons_self _ _)
      omega
    have hc : checkRateLimit counters cid t =
        (aset counters cid (k + 1, rt), decide (k + 1 ≤ MESSAGE_RATE_LIMIT)) := by
      simp only [checkRateLimit, hget]
      rw [if_neg hnot]
    rw [rlRun, hc]
    have hrec := ih (k + 1) rt (aset counters cid (k + 1, rt)) (aget_aset_self _ _ _)
      (fun u hu => hts u (List.mem_cons_of_mem _ hu))
    rw [hrec, List.length_cons, List.range_succ_eq_map, List.map_cons, List.map_map]
    have he0 : k + 0 + 1 = k + 1 := by omega
    rw [he0]
    congr 1
    refine List.map_congr_left ?_
    intro i _
    show decide (k + 1 + i + 1 ≤ MESSAGE_RATE_LIMIT) =
      decide (k + (i + 1) + 1 ≤ MESSAGE_RATE_LIMIT)
    have : k + 1 + i + 1 = k + (i + 1) + 1 := by omega
    rw [this]

end Server

/-- **C8.**  Within one rate-limit window the first `MESSAGE_RATE_LIMIT`
inbound messages are allowed and every later one is rejected; once the window
has elapsed the counter resets and the next message is allowed; and a rejected
message is answered with `RATE_LIMITED`, changes no room state, and is not
forwarded. -/
theorem rate_limit_spec :
    (∀ (cid : String) (t1 : Nat) (ts : List Nat),
      (∀ t ∈ ts, t ≤ t1 + Server.RATE_LIMIT_WINDOW) →
      Server.rlRun [] cid (t1 :: ts) =
        (List.range (ts.length + 1)).map
          (fun i => decide (i + 1 ≤ Server.MESSAGE_RATE_LIMIT))) ∧
    (∀ (counters : List (String × (Nat × Nat))) (cid : String) (c rt t : Nat),
      aget counters cid = some (c, rt) → t > rt →
      (Server.checkRateLimit counters cid t).2 = true ∧
      aget (Server.checkRateLimit counters cid t).1 cid =
        some (1, t + Server.RATE_LIMIT_WINDOW)) ∧
    (∀ (st : Server.ServerState) (counters : List (String × (Nat × Nat))) (cid : String)
      (msg : Server.CMsg) (freshId : String) (now : Nat),
      (Server.checkRateLimit counters cid now).2 = false →
      (Server.onMessage st counters cid msg freshId now).1 = st ∧
      (Server.onMessage st counters cid msg freshId now).2.2 =
        Server.sendTo st cid (Server.SMsg.error "RATE_LIMITED")) := by
  refine ⟨?_, ?_, ?_⟩
  · intro cid t1 ts hts
    have hc : Server.checkRateLimit [] cid t1 =
        (aset [] cid (1, t1 + Server.RATE_LIMIT_WINDOW),
          decide (1 ≤ Server.MESSAGE_RATE_LIMIT)) := by
      rw [Server.checkRateLimit]
      rfl
    rw [Server.rlRun, hc]
    have hrec := Server.rlRun_window cid ts 1 (t1 + Server.RATE_LIMIT_WINDOW)
      (aset [] cid (1, t1 + Server.RATE_LIMIT_WINDOW)) (aget_aset_self _ _ _) hts
    rw [hrec, List.range_succ_eq_map, List.map_cons, List.map_map]
    have he0 : (0:Nat) + 1 = 1 := by omega
    rw [he0]
    congr 1
    refine List.map_congr_left ?_
    intro i _
    show decide (1 + i + 1 ≤ Server.MESSAGE_RATE_LIMIT) =
      decide (i + 1 + 1 ≤ Server.MESSAGE_RATE_LIMIT)
    have : 1 + i + 1 = i + 1 + 1 := by omega
    rw [this]
  · intro counters cid c rt t hget hgt
    have hc : Server.checkRateLimit counters cid t =
        (aset counters cid (1, t + Server.RATE_LIMIT_WINDOW),
          decide (1 ≤ Server.MESSAGE_RATE_LIMIT)) := by
      simp only [Server.checkRateLimit, hget]
      rw [if_pos hgt]
    rw [hc]
    constructor
    · rfl
    · exact aget_aset_self _ _ _
  · intro st counters cid msg freshId now hrej
    simp only [Server.onMessage]
    rw [if_pos hrej]
    exact ⟨rfl, rfl⟩

theorem aget_append {α : Type} (l1 l2 : List (String × α)) (k : String) :
    aget (l1 ++ l2) k =
      match aget l1 k with
      | some v => some v
      | none => aget l2 k := by
  induction l1 with
  | nil => simp [aget]
  | cons p t ih =>
    by_cases hp : p.1 = k
    · simp [aget, hp]
    · simp [aget, hp, ih]

theorem aset_append_of_none {α : Type} (l1 l2 : List (String × α)) (k : String) (v : α)
    (h : aget l1 k = none) : aset (l1 ++ l2) k v = l1 ++ aset l2 k v := by
  induction l1 with
  | nil => simp
  | cons p t ih =>
    by_cases hp : p.1 = k
    · simp [aget, hp] at h
    · simp [aget, hp] at h
      simp [aset, hp, ih h]

theorem mem_adel_ne_key {α : Type} {l : List (String × α)} {k : String}
    {p : String × α} (hnd : keysNodup l) (h : p ∈ adel l k) : p.1 ≠ k := by
  intro hc
  have h1 : aget (adel l k) k = none := aget_adel_self k hnd
  have h2 : (k, p.2) ∈ adel l k := by
    have : p = (k, p.2) := by
      rw [← hc]
    exact this ▸ h
  have := isSome_aget_of_mem h2
  rw [h1] at this
  simp at this

namespace Server

theorem setConnRoom_aget_ne (conns : List (String × ConnInfo)) (cid k : String)
    (r : Option String) (h : k ≠ cid) :
    aget (setConnRoom conns cid r) k = aget conns k := by
  rw [setConnRoom]
  rcases hc : aget conns cid with _ | ci
  · rfl
  · exact aget_aset_ne _ h

theorem setConnRoom_aget_self (conns : List (String × ConnInfo)) (cid : String)
    (r : Option String) (ci : ConnInfo) (h : aget conns cid = some ci) :
    aget (setConnRoom conns cid r) cid = some ⟨r, ci.isOpen⟩ := by
  rw [setConnRoom, h]
  exact aget_aset_self _ _ _

theorem setConnRoom_isSome (conns : List (String × ConnInfo)) (cid k : String)
    (r : Option String) :
    (aget (setConnRoom conns cid r) k).isSome = (aget conns k).isSome := by
  by_cases hk : k = cid
  · subst hk
    rcases hc : aget conns k with _ | ci
    · rw [setConnRoom, hc]
      simp [hc]
    · rw [setConnRoom_aget_self conns k r ci hc]
      simp [hc]
  · rw [setConnRoom_aget_ne conns cid k r hk]

theorem setConnRoom_keysNodup (conns : List (String × ConnInfo)) (cid : String)
    (r : Option String) (hnd : keysNodup conns) :
    keysNodup (setConnRoom conns cid r) := by
  rw [setConnRoom]
  rcases aget conns cid with _ | ci
  · exact hnd
  · exact keysNodup_aset _ hnd

theorem markClosed_aget_ne (conns : List (String × ConnInfo)) (cid k : String)
    (h : k ≠ cid) : aget (markClosed conns cid) k = aget conns k := by
  rw [markClosed]
  rcases hc : aget conns cid with _ | ci
  · rfl
  · exact aget_aset_ne _ h

theorem markClosed_keysNodup (conns : List (String × ConnInfo)) (cid : String)
    (hnd : keysNodup conns) : keysNodup (markClosed conns cid) := by
  rw [markClosed]
  rcases aget conns cid with _ | ci
  · exact hnd
  · exact keysNodup_aset _ hnd

theorem connRoom_some_unique {st : ServerState} {cid rid : String} (hInv : Inv st)
    (hcr : connRoom st cid = some rid) :
    ∀ p ∈ st.rooms, (aget p.2.clients cid).isSome → p.1 = rid := by
  intro p hp hs
  rcases Option.isSome_iff_exists.mp hs with ⟨pk, hpk⟩
  rcases hInv.ptr p hp (cid, pk) (aget_mem hpk) with ⟨ci, hci, hcirid⟩
  simp only [connRoom, hci] at hcr
  rw [hcirid] at hcr
  exact Option.some.inj hcr

theorem connRoom_none_nomem {st : ServerState} {cid : String} (hInv : Inv st)
    (hcr : connRoom st cid = none) :
    ∀ p ∈ st.rooms, aget p.2.clients cid = none := by
  intro p hp
  rcases hs : aget p.2.clients cid with _ | pk
  · rfl
  · rcases hInv.ptr p hp (cid, pk) (aget_mem hs) with ⟨ci, hci, hcirid⟩
    simp only [connRoom, hci] at hcr
    rw [hcirid] at hcr
    simp at hcr

theorem handleLeave_inv (st : ServerState) (cid : String) (now : Nat) (hInv : Inv st) :
    Inv (handleLeave st cid now).1 ∧
    (∀ p ∈ (handleLeave st cid now).1.rooms, aget p.2.clients cid = none) ∧
    (∀ k, k ≠ cid → aget (handleLeave st cid now).1.conns k = aget st.conns k) ∧
    ((aget (handleLeave st cid now).1.conns cid).isSome = (aget st.conns cid).isSome) := by
  rcases hcr : connRoom st cid with _ | rid
  · have hres : handleLeave st cid now = (st, []) := by
      simp only [handleLeave, hcr]
    rw [hres]
    exact ⟨hInv, connRoom_none_nomem hInv hcr, fun k _ => rfl, rfl⟩
  · have hNoOther : ∀ p ∈ st.rooms, p.1 ≠ rid → aget p.2.clients cid = none := by
      intro p hp hne
      rcases hs : aget p.2.clients cid with _ | pk
      · rfl
      · exact absurd (connRoom_some_unique hInv hcr p hp (by simp [hs])) hne
    rcases hrm : aget st.rooms rid with _ | room
    · have hres : handleLeave st cid now = (st, []) := by
        simp only [handleLeave, hcr, hrm]
      rw [hres]
      refine ⟨hInv, ?_, fun k _ => rfl, rfl⟩
      intro p hp
      refine hNoOther p hp ?_
      intro hkey
      have hmem : (rid, p.2) ∈ st.rooms := by
        have he : p = (rid, p.2) := by rw [← hkey]
        exact he ▸ hp
      have h2 := isSome_aget_of_mem hmem
      rw [hrm] at h2
      simp at h2
    · have hroommem : (rid, room) ∈ st.rooms := aget_mem hrm
      have hclND : keysNodup room.clients := hInv.clientsND _ hroommem
      by_cases hmem : (aget room.clients cid).isSome = true
      · rw [handleLeave_eq st cid now rid room hcr hrm hmem]
        by_cases hempty : (adel room.clients cid).isEmpty
        · rw [if_pos hempty]
          refine ⟨⟨keysNodup_adel rid hInv.roomsND,
              setConnRoom_keysNodup _ _ _ hInv.connsND, ?_, ?_, ?_⟩, ?_, ?_, ?_⟩
          · intro p hp
            exact hInv.clientsND p (mem_of_mem_adel hp)
          · intro p hp
            exact hInv.clientsNE p (mem_of_mem_adel hp)
          · intro p hp q hq
            have hpmem := mem_of_mem_adel hp
            have hpne := mem_adel_ne_key hInv.roomsND hp
            have hqne : q.1 ≠ cid := by
              intro hc
              have hsome : (aget p.2.clients cid).isSome := by
                have he : q = (cid, q.2) := by rw [← hc]
                exact isSome_aget_of_mem (he ▸ hq)
              exact hpne (connRoom_some_unique hInv hcr p hpmem hsome)
            rcases hInv.ptr p hpmem q hq with ⟨ci, hci, hcir⟩
            exact ⟨ci, by rw [setConnRoom_aget_ne _ _ _ _ hqne]; exact hci, hcir⟩
          · intro p hp
            exact hNoOther p (mem_of_mem_adel hp) (mem_adel_ne_key hInv.roomsND hp)
          · intro k hk
            exact setConnRoom_aget_ne _ _ _ _ hk
          · exact setConnRoom_isSome _ _ _ _
        · rw [if_neg hempty]
          have hclND' : keysNodup (adel room.clients cid) := keysNodup_adel cid hclND
          refine ⟨⟨keysNodup_aset _ hInv.roomsND,
              setConnRoom_keysNodup _ _ _ hInv.connsND, ?_, ?_, ?_⟩, ?_, ?_, ?_⟩
          · intro p hp
            rcases mem_aset_nodup hInv.roomsND hp with h | ⟨h, _⟩
            · rw [h]
              exact hclND'
            · exact hInv.clientsND p h
          · intro p hp
            rcases mem_aset_nodup hInv.roomsND hp with h | ⟨h, _⟩
            · rw [h]
              intro hc
              simp only at hc
              exact hempty (by simp [hc])
            · exact hInv.clientsNE p h
          · intro p hp q hq
            rcases mem_aset_nodup hInv.roomsND hp with h | ⟨h, hne⟩
            · subst h
              simp only at hq
              have hqne := mem_adel_ne_key hclND hq
              rcases hInv.ptr (rid, room) hroommem q (mem_of_mem_adel hq) with ⟨ci, hci, hcir⟩
              exact ⟨ci, by rw [setConnRoom_aget_ne _ _ _ _ hqne]; exact hci, hcir⟩
            · have hqne : q.1 ≠ cid := by
                intro hc
                have hsome : (aget p.2.clients cid).isSome := by
                  have he : q = (cid, q.2) := by rw [← hc]
                  exact isSome_aget_of_mem (he ▸ hq)
                exact hne (connRoom_some_unique hInv hcr p h hsome)
              rcases hInv.ptr p h q hq with ⟨ci, hci, hcir⟩
              exact ⟨ci, by rw [setConnRoom_aget_ne _ _ _ _ hqne]; exact hci, hcir⟩
          · intro p hp
            rcases mem_aset_nodup hInv.roomsND hp with h | ⟨h, hne⟩
            · rw [h]
              exact aget_adel_self cid hclND
            · exact hNoOther p h hne
          · intro k hk
            exact setConnRoom_aget_ne _ _ _ _ hk
          · exact setConnRoom_isSome _ _ _ _
      · have hres : handleLeave st cid now = (st, []) := by
          simp only [handleLeave, hcr, hrm]
          rw [if_pos (by simpa using hmem)]
        rw [hres]
        refine ⟨hInv, ?_, fun k _ => rfl, rfl⟩
        intro p hp
        rcases hs : aget p.2.clients cid with _ | pk
        · rfl
        · have hkey := connRoom_some_unique hInv hcr p hp (by simp [hs])
          have hpe : p = (rid, room) :=
            nodup_key_inj hInv.roomsND hp hroommem hkey
          rw [hpe] at hs
          rw [hs] at hmem
          simp at hmem

theorem joinCore_inv (st1 : ServerState) (cid rid : String) (pk : Option String)
    (now : Nat) (hInv1 : Inv st1)
    (hnomem : ∀ p ∈ st1.rooms, aget p.2.clients cid = none)
    (hconn1 : (aget st1.conns cid).isSome = true) :
    Inv (joinCore st1 cid rid pk now).1 := by
  rcases Option.isSome_iff_exists.mp hconn1 with ⟨ci, hci⟩
  rcases hr : aget st1.rooms rid with _ | room0
  · -- room created fresh
    have hrooms2ND : keysNodup (aset st1.rooms rid ⟨[], now, []⟩) :=
      keysNodup_aset _ hInv1.roomsND
    have hr2 : aget (aset st1.rooms rid (⟨[], now, []⟩ : Room)) rid =
        some ⟨[], now, []⟩ := aget_aset_self _ _ _
    simp only [joinCore, hr, hr2]
    rw [if_neg (by simp [MAX_ROOM_SIZE])]
    refine ⟨keysNodup_aset _ hrooms2ND, setConnRoom_keysNodup _ _ _ hInv1.connsND,
      ?_, ?_, ?_⟩
    · intro p hp
      rcases mem_aset_nodup hrooms2ND hp with h | ⟨h, hne⟩
      · rw [h]
        simp [keysNodup, aset]
      · rcases mem_aset_nodup hInv1.roomsND h with h2 | ⟨h2, _⟩
        · exact absurd (by rw [h2]) hne
        · exact hInv1.clientsND p h2
    · intro p hp
      rcases mem_aset_nodup hrooms2ND hp with h | ⟨h, hne⟩
      · rw [h]
        exact aset_ne_nil _ _ _
      · rcases mem_aset_nodup hInv1.roomsND h with h2 | ⟨h2, _⟩
        · exact absurd (by rw [h2]) hne
        · exact hInv1.clientsNE p h2
    · intro p hp q hq
      rcases mem_aset_nodup hrooms2ND hp with h | ⟨h, hne⟩
      · subst h
        simp only at hq
        have hq' : q = (cid, pk) := by
          rcases mem_aset hq with h2 | h2
          · exact h2
          · simp at h2
        subst hq'
        exact ⟨⟨some rid, ci.isOpen⟩, setConnRoom_aget_self _ _ _ ci hci, rfl⟩
      · rcases mem_aset_nodup hInv1.roomsND h with h2 | ⟨h2, _⟩
        · exact absurd (by rw [h2]) hne
        · have hqne : q.1 ≠ cid := by
            intro hc
            have hsome : (aget p.2.clients cid).isSome := by
              have he : q = (cid, q.2) := by rw [← hc]
              exact isSome_aget_of_mem (he ▸ hq)
            rw [hnomem p h2] at hsome
            simp at hsome
          rcases hInv1.ptr p h2 q hq with ⟨ci', hci', hcir'⟩
          exact ⟨ci', by rw [setConnRoom_aget_ne _ _ _ _ hqne]; exact hci', hcir'⟩
  · -- room already exists
    have hmem0 : (rid, room0) ∈ st1.rooms := aget_mem hr
    have hclND0 : keysNodup room0.clients := hInv1.clientsND _ hmem0
    simp only [joinCore, hr]
    by_cases hfull : room0.clients.length ≥ MAX_ROOM_SIZE
    · rw [if_pos hfull]
      exact ⟨hInv1.roomsND, hInv1.connsND, hInv1.clientsND, hInv1.clientsNE, hInv1.ptr⟩
    · rw [if_neg hfull]
      refine ⟨keysNodup_aset _ hInv1.roomsND, setConnRoom_keysNodup _ _ _ hInv1.connsND,
        ?_, ?_, ?_⟩
      · intro p hp
        rcases mem_aset_nodup hInv1.roomsND hp with h | ⟨h, _⟩
        · rw [h]
          exact keysNodup_aset _ hclND0
        · exact hInv1.clientsND p h
      · intro p hp
        rcases mem_aset_nodup hInv1.roomsND hp with h | ⟨h, _⟩
        · rw [h]
          exact aset_ne_nil _ _ _
        · exact hInv1.clientsNE p h
      · intro p hp q hq
        rcases mem_aset_nodup hInv1.roomsND hp with h | ⟨h, hne⟩
        · subst h
          simp only at hq
          rcases mem_aset_nodup hclND0 hq with h2 | ⟨h2, hqne⟩
          · subst h2
            exact ⟨⟨some rid, ci.isOpen⟩, setConnRoom_aget_self _ _ _ ci hci, rfl⟩
          · rcases hInv1.ptr (rid, room0) hmem0 q h2 with ⟨ci', hci', hcir'⟩
            exact ⟨ci', by rw [setConnRoom_aget_ne _ _ _ _ hqne]; exact hci', hcir'⟩
        · have hqne : q.1 ≠ cid := by
            intro hc
            have hsome : (aget p.2.clients cid).isSome := by
              have he : q = (cid, q.2) := by rw [← hc]
              exact isSome_aget_of_mem (he ▸ hq)
            rw [hnomem p h] at hsome
            simp at hsome
          rcases hInv1.ptr p h q hq with ⟨ci', hci', hcir'⟩
          exact ⟨ci', by rw [setConnRoom_aget_ne _ _ _ _ hqne]; exact hci', hcir'⟩

theorem handleJoin_inv (st : ServerState) (cid : String) (roomId pk : Option String)
    (now : Nat) (hInv : Inv st) (hconn : (aget st.conns cid).isSome = true) :
    Inv (handleJoin st cid roomId pk now).1 := by
  rcases hv : validateRoomId roomId with _ | code
  · rcases hcr : connRoom st cid with _ | rid0
    · simp only [handleJoin, hv, hcr]
      exact joinCore_inv st cid _ pk now hInv (connRoom_none_nomem hInv hcr) hconn
    · simp only [handleJoin, hv, hcr]
      rcases handleLeave_inv st cid now hInv with ⟨hInvL, hnomemL, _, hsomeL⟩
      exact joinCore_inv _ cid _ pk now hInvL hnomemL (by rw [hsomeL]; exact hconn)
  · simp only [handleJoin, hv]
    exact hInv

theorem handleCreate_core_inv (st1 : ServerState) (cid freshId : String)
    (pk : Option String) (now : Nat) (hInv1 : Inv st1)
    (hnomem : ∀ p ∈ st1.rooms, aget p.2.clients cid = none)
    (hconn1 : (aget st1.conns cid).isSome = true) :
    Inv ⟨aset st1.rooms freshId ⟨aset [] cid pk, now, []⟩,
      setConnRoom st1.conns cid (some freshId)⟩ := by
  rcases Option.isSome_iff_exists.mp hconn1 with ⟨ci, hci⟩
  refine ⟨keysNodup_aset _ hInv1.roomsND, setConnRoom_keysNodup _ _ _ hInv1.connsND,
    ?_, ?_, ?_⟩
  · intro p hp
    rcases mem_aset_nodup hInv1.roomsND hp with h | ⟨h, _⟩
    · rw [h]
      simp [keysNodup, aset]
    · exact hInv1.clientsND p h
  · intro p hp
    rcases mem_aset_nodup hInv1.roomsND hp with h | ⟨h, _⟩
    · rw [h]
      exact aset_ne_nil _ _ _
    · exact hInv1.clientsNE p h
  · intro p hp q hq
    rcases mem_aset_nodup hInv1.roomsND hp with h | ⟨h, hne⟩
    · subst h
      simp only at hq
      have hq' : q = (cid, pk) := by
        rcases mem_aset hq with h2 | h2
        · exact h2
        · simp at h2
      subst hq'
      exact ⟨⟨some freshId, ci.isOpen⟩, setConnRoom_aget_self _ _ _ ci hci, rfl⟩
    · have hqne : q.1 ≠ cid := by
        intro hc
        have hsome : (aget p.2.clients cid).isSome := by
          have he : q = (cid, q.2) := by rw [← hc]
          exact isSome_aget_of_mem (he ▸ hq)
        rw [hnomem p h] at hsome
        simp at hsome
      rcases hInv1.ptr p h q hq with ⟨ci', hci', hcir'⟩
      exact ⟨ci', by rw [setConnRoom_aget_ne _ _ _ _ hqne]; exact hci', hcir'⟩

theorem handleCreate_inv (st : ServerState) (cid : String) (pk : Option String)
    (freshId : String) (now : Nat) (hInv : Inv st)
    (hconn : (aget st.conns cid).isSome = true) :
    Inv (handleCreate st cid pk freshId now).1 := by
  rcases hcr : connRoom st cid with _ | rid0
  · simp only [handleCreate, hcr]
    exact handleCreate_core_inv st cid freshId pk now hInv
      (connRoom_none_nomem hInv hcr) hconn
  · simp only [handleCreate, hcr]
    rcases handleLeave_inv st cid now hInv with ⟨hInvL, hnomemL, _, hsomeL⟩
    exact handleCreate_core_inv _ cid freshId pk now hInvL hnomemL
      (by rw [hsomeL]; exact hconn)

theorem update_room_inv (st : ServerState) (rid : String) (room room' : Room)
    (hInv : Inv st) (hrm : aget st.rooms rid = some room)
    (hcl : room'.clients = room.clients) :
    Inv ⟨aset st.rooms rid room', st.conns⟩ := by
  have hmem0 : (rid, room) ∈ st.rooms := aget_mem hrm
  refine ⟨keysNodup_aset _ hInv.roomsND, hInv.connsND, ?_, ?_, ?_⟩
  · intro p hp
    rcases mem_aset_nodup hInv.roomsND hp with h | ⟨h, _⟩
    · rw [h]
      show keysNodup room'.clients
      rw [hcl]
      exact hInv.clientsND _ hmem0
    · exact hInv.clientsND p h
  · intro p hp
    rcases mem_aset_nodup hInv.roomsND hp with h | ⟨h, _⟩
    · rw [h]
      show room'.clients ≠ []
      rw [hcl]
      exact hInv.clientsNE _ hmem0
    · exact hInv.clientsNE p h
  · intro p hp q hq
    rcases mem_aset_nodup hInv.roomsND hp with h | ⟨h, _⟩
    · subst h
      simp only at hq
      rw [hcl] at hq
      exact hInv.ptr (rid, room) hmem0 q hq
    · exact hInv.ptr p h q hq

theorem handleClipboard_inv (st : ServerState) (cid : String) (d : ClipData)
    (now : Nat) (hInv : Inv st) : Inv (handleClipboard st cid d now).1 := by
  rcases hcr : connRoom st cid with _ | rid
  · simp only [handleClipboard, hcr]
    exact hInv
  · rcases hrm : aget st.rooms rid with _ | room
    · simp only [handleClipboard, hcr, hrm]
      exact hInv
    · simp only [handleClipboard, hcr, hrm]
      exact update_room_inv st rid room _ hInv hrm rfl

theorem handleFileChunk_inv (st : ServerState) (cid : String) (d : ChunkData)
    (now : Nat) (hInv : Inv st) : Inv (handleFileChunk st cid d now).1 := by
  rcases hcr : connRoom st cid with _ | rid
  · simp only [handleFileChunk, hcr]
    exact hInv
  · rcases hv : validateFileChunk d with _ | code
    · rcases hrm : aget st.rooms rid with _ | room
      · simp only [handleFileChunk, hcr, hv, hrm]
        exact hInv
      · simp only [handleFileChunk, hcr, hv, hrm]
        exact update_room_inv st rid room _ hInv hrm rfl
    · simp only [handleFileChunk, hcr, hv]
      exact hInv

theorem handleFileStart_inv (st : ServerState) (cid : String) (d : FileStartData)
    (now : Nat) (hInv : Inv st) : Inv (handleFileStart st cid d now).1 := by
  rcases hcr : connRoom st cid with _ | rid
  · simp only [handleFileStart, hcr]
    exact hInv
  · rcases hv : validateFileStart d with _ | code
    · rcases hrm : aget st.rooms rid with _ | room
      · simp only [handleFileStart, hcr, hv, hrm]
        exact hInv
      · simp only [handleFileStart, hcr, hv, hrm]
        exact update_room_inv st rid room _ hInv hrm rfl
    · simp only [handleFileStart, hcr, hv]
      exact hInv

theorem newConn_inv (st : ServerState) (cid : String) (hInv : Inv st)
    (hfresh : aget st.conns cid = none) :
    Inv ⟨st.rooms, aset st.conns cid ⟨none, true⟩⟩ := by
  refine ⟨hInv.roomsND, keysNodup_aset _ hInv.connsND, hInv.clientsND, hInv.clientsNE, ?_⟩
  intro p hp q hq
  rcases hInv.ptr p hp q hq with ⟨ci, hci, hcir⟩
  have hqne : q.1 ≠ cid := by
    intro hc
    rw [hc, hfresh] at hci
    simp at hci
  exact ⟨ci, by rw [aget_aset_ne _ hqne]; exact hci, hcir⟩

theorem markClosed_aget_self (conns : List (String × ConnInfo)) (cid : String)
    (ci : ConnInfo) (h : aget conns cid = some ci) :
    aget (markClosed conns cid) cid = some ⟨ci.roomId, false⟩ := by
  rw [markClosed, h]
  exact aget_aset_self _ _ _

theorem disconnect_inv (st : ServerState) (cid : String) (now : Nat) (hInv : Inv st) :
    Inv (disconnect st cid now).1 := by
  rcases handleLeave_inv st cid now hInv with ⟨hInvL, _, _, _⟩
  rw [show (disconnect st cid now).1 =
      ⟨(handleLeave st cid now).1.rooms, markClosed (handleLeave st cid now).1.conns cid⟩
    from rfl]
  refine ⟨hInvL.roomsND, markClosed_keysNodup _ _ hInvL.connsND,
    hInvL.clientsND, hInvL.clientsNE, ?_⟩
  intro p hp q hq
  rcases hInvL.ptr p hp q hq with ⟨ci, hci, hcir⟩
  by_cases hqc : q.1 = cid
  · rw [hqc] at hci ⊢
    exact ⟨⟨ci.roomId, false⟩, markClosed_aget_self _ _ ci hci, hcir⟩
  · exact ⟨ci, by rw [markClosed_aget_ne _ _ _ hqc]; exact hci, hcir⟩

theorem aget_map_adjust (l : List (String × ConnInfo)) (pred : String → Bool)
    (k : String) :
    aget (l.map (fun q => if pred q.1 then (q.1, (⟨q.2.roomId, false⟩ : ConnInfo)) else q))
        k =
      (aget l k).map (fun ci => if pred k then ⟨ci.roomId, false⟩ else ci) := by
  induction l with
  | nil => rfl
  | cons p t ih =>
    by_cases hp : p.1 = k
    · subst hp
      by_cases hpred : pred p.1
      · simp [aget, hpred]
      · simp [aget, hpred]
    · by_cases hpred : pred p.1
      · simp [aget, hp, hpred, ih]
      · simp [aget, hp, hpred, ih]

theorem keys_map_adjust (l : List (String × ConnInfo)) (pred : String → Bool) :
    (l.map (fun q => if pred q.1 then (q.1, (⟨q.2.roomId, false⟩ : ConnInfo)) else q)).map
        Prod.fst = l.map Prod.fst := by
  rw [List.map_map]
  refine List.map_congr_left ?_
  intro q _
  by_cases hpred : pred q.1
  · simp [hpred]
  · simp [hpred]

theorem sweep_inv (st : ServerState) (now : Nat) (hInv : Inv st) :
    Inv (sweep st now).1 := by
  rw [show (sweep st now).1 =
      ⟨st.rooms.filter (fun p => !(isIdle now p.2)),
        st.conns.map (fun q =>
          if inIdleRoom st now q.1 then (q.1, (⟨q.2.roomId, false⟩ : ConnInfo)) else q)⟩
    from rfl]
  refine ⟨?_, ?_, ?_, ?_, ?_⟩
  · exact List.Nodup.sublist (List.Sublist.map Prod.fst (List.filter_sublist _)) hInv.roomsND
  · rw [keysNodup, keys_map_adjust]
    exact hInv.connsND
  · intro p hp
    exact hInv.clientsND p (List.mem_of_mem_filter hp)
  · intro p hp
    exact hInv.clientsNE p (List.mem_of_mem_filter hp)
  · intro p hp q hq
    rcases hInv.ptr p (List.mem_of_mem_filter hp) q hq with ⟨ci, hci, hcir⟩
    by_cases hpred : inIdleRoom st now q.1
    · refine ⟨⟨ci.roomId, false⟩, ?_, hcir⟩
      rw [aget_map_adjust, hci]
      simp [hpred]
    · refine ⟨ci, ?_, hcir⟩
      rw [aget_map_adjust, hci]
      simp [hpred]

/-- Every reachable relay state satisfies the invariant. -/
theorem reachable_inv {s : ServerState} (h : Reachable s) : Inv s := by
  induction h with
  | init =>
    exact ⟨by simp [initState, keysNodup], by simp [initState, keysNodup],
      by simp [initState], by simp [initState], by simp [initState]⟩
  | step hr hs ih =>
    cases hs with
    | newConn cid hfresh => exact newConn_inv _ cid ih hfresh
    | join cid roomId pk now hconn => exact handleJoin_inv _ cid roomId pk now ih hconn
    | create cid pk freshId now hconn hfresh =>
      exact handleCreate_inv _ cid pk freshId now ih hconn
    | leave cid now => exact (handleLeave_inv _ cid now ih).1
    | clipboard cid d now => exact handleClipboard_inv _ cid d now ih
    | fileChunk cid d now => exact handleFileChunk_inv _ cid d now ih
    | fileStart cid d now => exact handleFileStart_inv _ cid d now ih
    | close cid now => exact disconnect_inv _ cid now ih
    | idleSweep now => exact sweep_inv _ now ih

end Server

theorem length_le_one_of_nodup_all_eq {α : Type} (l : List α) (hnd : l.Nodup)
    (heq : ∀ a ∈ l, ∀ b ∈ l, a = b) : l.length ≤ 1 := by
  match l with
  | [] => simp
  | [a] => simp
  | a :: b :: t =>
    rw [List.nodup_cons] at hnd
    have hab := heq a (by simp) b (by simp)
    exact absurd (hab ▸ List.mem_cons_self b t) hnd.1

/-- **C10.**  In every reachable relay state, a connection id is a member of at
most one room: `join`/`create` run the full leave cleanup on the old room
before adding the connection to the new one. -/
theorem one_room_per_connection (s : Server.ServerState) (h : Server.Reachable s)
    (cid : String) :
    (s.rooms.filter (fun p => (aget p.2.clients cid).isSome)).length ≤ 1 := by
  have hInv := Server.reachable_inv h
  refine length_le_one_of_nodup_all_eq _ ?_ ?_
  · exact List.Nodup.sublist (List.filter_sublist _) (List.Nodup.of_map _ hInv.roomsND)
  · intro a ha b hb
    have hamem := List.mem_of_mem_filter ha
    have hbmem := List.mem_of_mem_filter hb
    have has : (aget a.2.clients cid).isSome := by simpa using List.of_mem_filter ha
    have hbs : (aget b.2.clients cid).isSome := by simpa using List.of_mem_filter hb
    rcases Option.isSome_iff_exists.mp has with ⟨pka, hpka⟩
    rcases Option.isSome_iff_exists.mp hbs with ⟨pkb, hpkb⟩
    rcases hInv.ptr a hamem (cid, pka) (aget_mem hpka) with ⟨ci, hci, hcira⟩
    rcases hInv.ptr b hbmem (cid, pkb) (aget_mem hpkb) with ⟨ci', hci', hcirb⟩
    rw [hci] at hci'
    have hcieq : ci = ci' := Option.some.inj hci'
    subst hcieq
    rw [hcira] at hcirb
    exact nodup_key_inj hInv.roomsND hamem hbmem (Option.some.inj hcirb)

/-- **C10 witness.** -/
theorem one_room_per_connection_witness :
    (Server.initState.rooms.filter
      (fun p => (aget p.2.clients "A").isSome)).length ≤ 1 :=
  one_room_per_connection Server.initState Server.Reachable.init "A"

namespace Server

theorem aget_map_const_none {α : Type} (l : List String) (v : α) (k : String)
    (h : k ∉ l) : aget (l.map (fun i => (i, v))) k = none := by
  induction l with
  | nil => rfl
  | cons i t ih =>
    have hik : i ≠ k := fun hc => h (hc ▸ List.mem_cons_self _ _)
    have hkt : k ∉ t := fun hc => h (List.mem_cons_of_mem _ hc)
    simp [aget, hik, ih hkt]

theorem valid_ROOMA1 : validateRoomId (some "ROOMA1") = none := by decide

theorem upper_ROOMA1 : upperStr "ROOMA1" = "ROOMA1" := by decide

theorem joinAll_exact :
    ∀ (pending done : List String),
      (done ++ pending).Nodup → done ≠ [] →
      done.length + pending.length ≤ MAX_ROOM_SIZE →
      joinAll "ROOMA1" pending
        ⟨[("ROOMA1", ⟨done.map (fun i => (i, none)), 0, []⟩)],
          done.map (fun i => (i, (⟨some "ROOMA1", true⟩ : ConnInfo))) ++ freshConns pending⟩ =
      ⟨[("ROOMA1", ⟨(done ++ pending).map (fun i => (i, none)), 0, []⟩)],
        (done ++ pending).map (fun i => (i, (⟨some "ROOMA1", true⟩ : ConnInfo)))⟩ := by
  intro pending
  induction pending with
  | nil =>
    intro done hnd hne hlen
    simp [joinAll, freshConns]
  | cons p rest ih =>
    intro done hnd hne hlen
    have hdisj := List.disjoint_of_nodup_append hnd
    have hpnotdone : p ∉ done := fun hp => hdisj hp (List.mem_cons_self _ _)
    have hgetp_done :
        aget (done.map (fun i => (i, (⟨some "ROOMA1", true⟩ : ConnInfo)))) p = none :=
      aget_map_const_none _ _ _ hpnotdone
    have hgetp_pair : aget (done.map (fun i => (i, (none : Option String)))) p = none :=
      aget_map_const_none _ _ _ hpnotdone
    have hconns : aget (done.map (fun i => (i, (⟨some "ROOMA1", true⟩ : ConnInfo))) ++
        freshConns (p :: rest)) p = some ⟨none, true⟩ := by
      rw [aget_append, hgetp_done]
      simp [freshConns, aget]
    have hstep : (handleJoin
        ⟨[("ROOMA1", ⟨done.map (fun i => (i, none)), 0, []⟩)],
          done.map (fun i => (i, (⟨some "ROOMA1", true⟩ : ConnInfo))) ++
            freshConns (p :: rest)⟩ p (some "ROOMA1") none 0).1 =
        ⟨[("ROOMA1", ⟨(done ++ [p]).map (fun i => (i, none)), 0, []⟩)],
          (done ++ [p]).map (fun i => (i, (⟨some "ROOMA1", true⟩ : ConnInfo))) ++
            freshConns rest⟩ := by
      have hcr : connRoom ⟨[("ROOMA1", ⟨done.map (fun i => (i, none)), 0, []⟩)],
          done.map (fun i => (i, (⟨some "ROOMA1", true⟩ : ConnInfo))) ++
            freshConns (p :: rest)⟩ p = none := by
        simp only [connRoom, hconns]
      simp only [handleJoin, valid_ROOMA1, Option.getD_some, upper_ROOMA1, hcr, joinCore]
      have hroom : aget [("ROOMA1", (⟨done.map (fun i => (i, none)), 0, []⟩ : Room))]
          "ROOMA1" = some ⟨done.map (fun i => (i, none)), 0, []⟩ := by
        simp [aget]
      simp only [hroom]
      rw [if_neg (by
        simp only [List.length_map]
        have h10 : done.length + (p :: rest).length ≤ 10 := by
          simpa [MAX_ROOM_SIZE] using hlen
        simp only [List.length_cons] at h10
        simp only [MAX_ROOM_SIZE]
        omega)]
      show (⟨aset [("ROOMA1", ⟨done.map (fun i => (i, none)), 0, []⟩)] "ROOMA1"
          ⟨aset (done.map (fun i => (i, none))) p none, 0, []⟩,
        setConnRoom (done.map (fun i => (i, (⟨some "ROOMA1", true⟩ : ConnInfo))) ++
          freshConns (p :: rest)) p (some "ROOMA1")⟩ : ServerState) = _
      congr 1
      · rw [aset_of_none_eq_append _ hgetp_pair]
        simp [aset]
      · simp only [setConnRoom, hconns]
        rw [show freshConns (p :: rest) =
            (p, (⟨none, true⟩ : ConnInfo)) :: freshConns rest from rfl,
          aset_append_of_none _ _ _ _ hgetp_done]
        simp [aset]
    show joinAll "ROOMA1" rest _ = _
    rw [hstep]
    have hnd' : ((done ++ [p]) ++ rest).Nodup := by
      rw [List.append_assoc]
      exact hnd
    have := ih (done ++ [p]) hnd' (by simp)
      (by simp at hlen ⊢; omega)
    rw [this]
    simp

theorem joinAll_start (ids : List String) (hnd : ids.Nodup) (hne : ids ≠ [])
    (hlen : ids.length ≤ MAX_ROOM_SIZE) :
    joinAll "ROOMA1" ids ⟨[], freshConns ids⟩ =
      ⟨[("ROOMA1", ⟨ids.map (fun i => (i, none)), 0, []⟩)],
        ids.map (fun i => (i, (⟨some "ROOMA1", true⟩ : ConnInfo)))⟩ := by
  rcases ids with _ | ⟨i0, rest⟩
  · exact absurd rfl hne
  · have hconns : aget (freshConns (i0 :: rest)) i0 = some ⟨none, true⟩ := by
      simp [freshConns, aget]
    have hstep : (handleJoin ⟨[], freshConns (i0 :: rest)⟩ i0 (some "ROOMA1") none 0).1 =
        ⟨[("ROOMA1", ⟨[(i0, none)], 0, []⟩)],
          (i0, (⟨some "ROOMA1", true⟩ : ConnInfo)) :: freshConns rest⟩ := by
      have hcr : connRoom ⟨[], freshConns (i0 :: rest)⟩ i0 = none := by
        simp only [connRoom, hconns]
      simp only [handleJoin, valid_ROOMA1, Option.getD_some, upper_ROOMA1, hcr, joinCore]
      have hr0 : aget ([] : List (String × Room)) "ROOMA1" = none := rfl
      simp only [hr0]
      have hr1 : aget (aset ([] : List (String × Room)) "ROOMA1" ⟨[], 0, []⟩) "ROOMA1" =
          some ⟨[], 0, []⟩ := aget_aset_self _ _ _
      simp only [hr1]
      rw [if_neg (by simp [MAX_ROOM_SIZE])]
      show (⟨aset (aset ([] : List (String × Room)) "ROOMA1" ⟨[], 0, []⟩) "ROOMA1"
          ⟨aset [] i0 none, 0, []⟩,
        setConnRoom (freshConns (i0 :: rest)) i0 (some "ROOMA1")⟩ : ServerState) = _
      congr 1 <;> simp [aset, aget, setConnRoom, hconns, freshConns]
    show joinAll "ROOMA1" rest _ = _
    rw [hstep]
    have := joinAll_exact rest [i0] hnd (List.cons_ne_nil i0 [])
      (by
        have h1 : ([i0] : List String).length = 1 := rfl
        rw [h1]
        simp only [List.length_cons] at hlen
        omega)
    rw [show (⟨[("ROOMA1", ⟨[(i0, none)], 0, []⟩)],
        (i0, (⟨some "ROOMA1", true⟩ : ConnInfo)) :: freshConns rest⟩ : ServerState) =
      ⟨[("ROOMA1", ⟨[i0].map (fun i => (i, none)), 0, []⟩)],
        [i0].map (fun i => (i, (⟨some "ROOMA1", true⟩ : ConnInfo))) ++ freshConns rest⟩
      from rfl, this]
    simp

theorem leaveAll_stay :
    ∀ (toLeave gone stay : List String),
      ((gone ++ toLeave) ++ stay).Nodup → stay ≠ [] →
      leaveAll toLeave
        ⟨[("ROOMA1", ⟨(toLeave ++ stay).map (fun i => (i, none)), 0, []⟩)],
          gone.map (fun i => (i, (⟨none, true⟩ : ConnInfo))) ++
            (toLeave ++ stay).map (fun i => (i, (⟨some "ROOMA1", true⟩ : ConnInfo)))⟩ =
      ⟨[("ROOMA1", ⟨stay.map (fun i => (i, none)), 0, []⟩)],
        (gone ++ toLeave).map (fun i => (i, (⟨none, true⟩ : ConnInfo))) ++
          stay.map (fun i => (i, (⟨some "ROOMA1", true⟩ : ConnInfo)))⟩ := by
  intro toLeave
  induction toLeave with
  | nil =>
    intro gone stay hnd hstay
    simp [leaveAll]
  | cons t rest ih =>
    intro gone stay hnd hstay
    have hndgt : (gone ++ t :: rest).Nodup :=
      List.Nodup.sublist (List.sublist_append_left _ _) hnd
    have htgone : t ∉ gone := fun hp =>
      (List.disjoint_of_nodup_append hndgt) hp (List.mem_cons_self _ _)
    have hgetgone : aget (gone.map (fun i => (i, (⟨none, true⟩ : ConnInfo)))) t = none :=
      aget_map_const_none _ _ _ htgone
    have hconns : aget (gone.map (fun i => (i, (⟨none, true⟩ : ConnInfo))) ++
        ((t :: rest) ++ stay).map (fun i => (i, (⟨some "ROOMA1", true⟩ : ConnInfo)))) t =
        some ⟨some "ROOMA1", true⟩ := by
      rw [aget_append, hgetgone]
      simp [aget]
    have hcr : connRoom ⟨[("ROOMA1", ⟨((t :: rest) ++ stay).map (fun i => (i, none)), 0, []⟩)],
        gone.map (fun i => (i, (⟨none, true⟩ : ConnInfo))) ++
          ((t :: rest) ++ stay).map (fun i => (i, (⟨some "ROOMA1", true⟩ : ConnInfo)))⟩ t =
        some "ROOMA1" := by
      simp only [connRoom, hconns]
    have hrm : aget [("ROOMA1",
        (⟨((t :: rest) ++ stay).map (fun i => (i, none)), 0, []⟩ : Room))] "ROOMA1" =
        some ⟨((t :: rest) ++ stay).map (fun i => (i, none)), 0, []⟩ := by
      simp [aget]
    have hmem : (aget (((t :: rest) ++ stay).map
        (fun i => (i, (none : Option String)))) t).isSome = true := by
      simp [aget]
    have hstep := handleLeave_eq _ t 0 "ROOMA1" _ hcr hrm hmem
    have hclients : adel (((t :: rest) ++ stay).map (fun i => (i, none))) t =
        (rest ++ stay).map (fun i => (i, (none : Option String))) := by
      simp [adel]
    have hnotempty : ((rest ++ stay).map
        (fun i => (i, (none : Option String)))).isEmpty = false := by
      rcases stay with _ | ⟨s0, stail⟩
      · exact absurd rfl hstay
      · rcases rest with _ | ⟨r0, rtail⟩
        · simp
        · simp
    have hstate : (handleLeave
        (⟨[("ROOMA1", ⟨((t :: rest) ++ stay).map (fun i => (i, none)), 0, []⟩)],
          gone.map (fun i => (i, (⟨none, true⟩ : ConnInfo))) ++
            ((t :: rest) ++ stay).map
              (fun i => (i, (⟨some "ROOMA1", true⟩ : ConnInfo)))⟩ : ServerState) t 0).1 =
        ⟨[("ROOMA1", ⟨(rest ++ stay).map (fun i => (i, none)), 0, []⟩)],
          (gone ++ [t]).map (fun i => (i, (⟨none, true⟩ : ConnInfo))) ++
            (rest ++ stay).map (fun i => (i, (⟨some "ROOMA1", true⟩ : ConnInfo)))⟩ := by
      rw [hstep, hclients]
      rw [if_neg (by rw [hnotempty]; simp)]
      simp only [setConnRoom, hconns, List.map_cons]
      rw [aset_append_of_none _ _ _ _ hgetgone]
      simp [aset, adel]
    show leaveAll rest _ = _
    rw [hstate]
    have hasc : (gone ++ [t]) ++ rest = gone ++ t :: rest := by simp
    have hnd' : (((gone ++ [t]) ++ rest) ++ stay).Nodup := by
      rw [hasc]
      exact hnd
    rw [ih (gone ++ [t]) stay hnd' hstay, hasc]

theorem leaveAll_empty :
    ∀ (toLeave gone : List String),
      (gone ++ toLeave).Nodup → toLeave ≠ [] →
      leaveAll toLeave
        ⟨[("ROOMA1", ⟨toLeave.map (fun i => (i, none)), 0, []⟩)],
          gone.map (fun i => (i, (⟨none, true⟩ : ConnInfo))) ++
            toLeave.map (fun i => (i, (⟨some "ROOMA1", true⟩ : ConnInfo)))⟩ =
      ⟨[], (gone ++ toLeave).map (fun i => (i, (⟨none, true⟩ : ConnInfo)))⟩ := by
  intro toLeave
  induction toLeave with
  | nil =>
    intro gone _ hne
    exact absurd rfl hne
  | cons t rest ih =>
    intro gone hnd hne
    have htgone : t ∉ gone := fun hp =>
      (List.disjoint_of_nodup_append hnd) hp (List.mem_cons_self _ _)
    have hgetgone : aget (gone.map (fun i => (i, (⟨none, true⟩ : ConnInfo)))) t = none :=
      aget_map_const_none _ _ _ htgone
    have hconns : aget (gone.map (fun i => (i, (⟨none, true⟩ : ConnInfo))) ++
        (t :: rest).map (fun i => (i, (⟨some "ROOMA1", true⟩ : ConnInfo)))) t =
        some ⟨some "ROOMA1", true⟩ := by
      rw [aget_append, hgetgone]
      simp [aget]
    have hcr : connRoom ⟨[("ROOMA1", ⟨(t :: rest).map (fun i => (i, none)), 0, []⟩)],
        gone.map (fun i => (i, (⟨none, true⟩ : ConnInfo))) ++
          (t :: rest).map (fun i => (i, (⟨some "ROOMA1", true⟩ : ConnInfo)))⟩ t =
        some "ROOMA1" := by
      simp only [connRoom, hconns]
    have hrm : aget [("ROOMA1",
        (⟨(t :: rest).map (fun i => (i, none)), 0, []⟩ : Room))] "ROOMA1" =
        some ⟨(t :: rest).map (fun i => (i, none)), 0, []⟩ := by
      simp [aget]
    have hmem : (aget ((t :: rest).map
        (fun i => (i, (none : Option String)))) t).isSome = true := by
      simp [aget]
    have hstep := handleLeave_eq _ t 0 "ROOMA1" _ hcr hrm hmem
    have hclients : adel ((t :: rest).map (fun i => (i, none))) t =
        rest.map (fun i => (i, (none : Option String))) := by
      simp [adel]
    rcases rest with _ | ⟨r0, rtail⟩
    · have hstate : (handleLeave
          (⟨[("ROOMA1", ⟨([t]).map (fun i => (i, none)), 0, []⟩)],
            gone.map (fun i => (i, (⟨none, true⟩ : ConnInfo))) ++
              ([t]).map (fun i => (i, (⟨some "ROOMA1", true⟩ : ConnInfo)))⟩ : ServerState)
            t 0).1 =
          ⟨[], (gone ++ [t]).map (fun i => (i, (⟨none, true⟩ : ConnInfo)))⟩ := by
        rw [hstep, hclients]
        rw [if_pos (by simp)]
        simp only [setConnRoom, hconns]
        simp only [List.map_cons]
        rw [aset_append_of_none _ _ _ _ hgetgone]
        simp [aset, adel]
      show leaveAll [] _ = _
      rw [show leaveAll [] = id from rfl]
      simp only [id]
      rw [hstate]
    · have hstate : (handleLeave
          (⟨[("ROOMA1", ⟨((t :: r0 :: rtail)).map (fun i => (i, none)), 0, []⟩)],
            gone.map (fun i => (i, (⟨none, true⟩ : ConnInfo))) ++
              ((t :: r0 :: rtail)).map
                (fun i => (i, (⟨some "ROOMA1", true⟩ : ConnInfo)))⟩ : ServerState) t 0).1 =
          ⟨[("ROOMA1", ⟨(r0 :: rtail).map (fun i => (i, none)), 0, []⟩)],
            (gone ++ [t]).map (fun i => (i, (⟨none, true⟩ : ConnInfo))) ++
              (r0 :: rtail).map (fun i => (i, (⟨some "ROOMA1", true⟩ : ConnInfo)))⟩ := by
        rw [hstep, hclients]
        rw [if_neg (by simp)]
        simp only [setConnRoom, hconns]
        simp only [List.map_cons]
        rw [aset_append_of_none _ _ _ _ hgetgone]
        simp [aset, adel]
      show leaveAll (r0 :: rtail) _ = _
      rw [hstate]
      have hasc : (gone ++ [t]) ++ r0 :: rtail = gone ++ t :: r0 :: rtail := by simp
      have hnd' : ((gone ++ [t]) ++ r0 :: rtail).Nodup := by
        rw [hasc]
        exact hnd
      rw [ih (gone ++ [t]) hnd' (by simp), hasc]

end Server

/-- C5 counterexample: the spec states that after `N` joins and `M` leaves
(`M < N`) of the same room the membership count equals `N - M`, with no side
condition.  With `N = 11` fresh connections joining one room and `M = 0`
leaves, the room holds only `10` members (`MAX_ROOM_SIZE`): the eleventh join
is rejected with a `ROOM_FULL` error, so the claimed count `N - M = 11` is
wrong. -/
theorem eleven_joins_capped :
    Server.elevenIds.length = 11 ∧ Server.elevenIds.Nodup ∧
    (aget (Server.joinAll "ROOMA1" Server.elevenIds
        ⟨[], Server.freshConns Server.elevenIds⟩).rooms "ROOMA1").map
      (fun r => r.clients.length) = some 10 ∧
    (Server.handleJoin (Server.joinAll "ROOMA1" (Server.elevenIds.take 10)
        ⟨[], Server.freshConns Server.elevenIds⟩) "C11" (some "ROOMA1") none 0).2 =
      [("C11", Server.SMsg.error "ROOM_FULL")] := by
  decide

/-- C5 (amended): in every reachable server state every room in the map has a
non-empty member list (a room is deleted exactly when its last member leaves),
and the count formula holds only up to the room capacity: for `N` distinct
fresh connections joining one room with `N ≤ MAX_ROOM_SIZE` followed by `M ≤ N`
leaves, the room's membership count is `N - M` while `M < N`, and the room is
gone from the map when `M = N`. -/
theorem room_lifecycle_amended :
    (∀ s, Server.Reachable s → ∀ p ∈ s.rooms, p.2.clients ≠ []) ∧
    (∀ (ids : List String) (M : Nat), ids.Nodup → ids ≠ [] →
      ids.length ≤ Server.MAX_ROOM_SIZE → M ≤ ids.length →
      (aget (Server.leaveAll (ids.take M)
          (Server.joinAll "ROOMA1" ids ⟨[], Server.freshConns ids⟩)).rooms
        "ROOMA1").map (fun r => r.clients.length) =
      if M < ids.length then some (ids.length - M) else none) := by
  constructor
  · intro s hs
    exact (Server.reachable_inv hs).clientsNE
  · intro ids M hnd hne hlen hMle
    have hsplit := List.take_append_drop M ids
    rw [Server.joinAll_start ids hnd hne hlen]
    by_cases hM : M < ids.length
    · rw [if_pos hM]
      have hstay : ids.drop M ≠ [] := by
        apply List.length_pos.mp
        rw [List.length_drop]
        omega
      have hnd2 : ((([] : List String) ++ ids.take M) ++ ids.drop M).Nodup := by
        simpa [hsplit] using hnd
      have hlem := Server.leaveAll_stay (ids.take M) [] (ids.drop M) hnd2 hstay
      simp only [List.nil_append, List.map_nil] at hlem
      rw [hsplit] at hlem
      rw [hlem]
      simp [aget, List.length_drop]
    · rw [if_neg hM]
      have hMeq : M = ids.length := by omega
      have htake : ids.take M = ids := by
        rw [hMeq]
        exact List.take_length ids
      rw [htake]
      have hnd2 : (([] : List String) ++ ids).Nodup := by simpa using hnd
      have hlem := Server.leaveAll_empty ids [] hnd2 hne
      simp only [List.nil_append, List.map_nil] at hlem
      rw [hlem]
      rfl

/-- Witness for `room_lifecycle_amended`: the initial state is reachable and
vacuously has no empty room, and the concrete run of two joins then one leave
of room `ROOMA1` leaves a single member. -/
theorem room_lifecycle_amended_witness :
    (∀ p ∈ Server.initState.rooms, p.2.clients ≠ []) ∧
    (aget (Server.leaveAll ((["A1", "B1"] : List String).take 1)
        (Server.joinAll "ROOMA1" ["A1", "B1"]
          ⟨[], Server.freshConns ["A1", "B1"]⟩)).rooms
      "ROOMA1").map (fun r => r.clients.length) =
      if 1 < (["A1", "B1"] : List String).length then
        some ((["A1", "B1"] : List String).length - 1) else none :=
  ⟨room_lifecycle_amended.1 Server.initState Server.Reachable.init,
   room_lifecycle_amended.2 ["A1", "B1"] 1 (by decide) (by decide)
     (by decide) (by decide)⟩

/-- Witness for `broadcast_excludes_sender`: in the two-member room, a
broadcast excluding `A` reaches `B`, and the clipboard relay of a message from
`A` delivered to `B` is indeed not an echo. -/
theorem broadcast_excludes_sender_witness :
    ("B", Server.SMsg.reload) ∈
      Server.broadcastToRoom wsState0 "ROOMA1" Server.SMsg.reload (some "A") ∧
    ("B" : String) ≠ "A" :=
  ⟨(broadcast_excludes_sender.1 wsState0 "ROOMA1" Server.SMsg.reload (some "A")).2
      wsRoom0 "B" none (by decide) (by decide) (by decide) (by decide),
   broadcast_excludes_sender.2.1 wsState0 "A" clipMsg0 5
      ("B", Server.SMsg.clipboardRelay clipMsg0 "A" 5) (by decide) (by decide)⟩

/-- Witness for `transfer_tracking_amended`: the valid chunk `chunkMsg1` sent
by `A` is relayed to the open non-sender member `B` stamped with `A`. -/
theorem transfer_tracking_amended_witness :
    ("B", Server.SMsg.chunkRelay chunkMsg1 "A") ∈
      (Server.handleFileChunk wsState0 "A" chunkMsg1 5).2 :=
  (transfer_tracking_amended.2.2.1 wsState0 "A" "ROOMA1" chunkMsg1 5 wsRoom0
      (by decide) (by decide) (by decide)).1 "B" none (by decide) (by decide) (by decide)

/-- Witness for `leave_cleanup_spec`: when `A` leaves while transfer `F1` is in
flight, the remaining member `B` receives a `file-cancel` for `F1`. -/
theorem leave_cleanup_spec_witness :
    ("B", Server.SMsg.fileCancel "F1" "A") ∈ (Server.handleLeave wsStateT "A" 7).2 :=
  (leave_cleanup_spec wsStateT "A" "ROOMA1" wsRoomT 7
      (by decide : (wsStateT.rooms.map Prod.fst).Nodup) (by decide) (by decide)
      (by decide) (by decide : (wsRoomT.clients.map Prod.fst).Nodup)
      (by decide : (wsRoomT.activeTransfers.map Prod.fst).Nodup)).2.1 "F1" (by decide)
    "B" none (by decide) (by decide)

/-- Witness for `join_validation_amended`: the 2-character id `zz` is rejected
with `INVALID_ROOM_ID` and no state change, and joining `ab12c3` lands the
connection in the uppercase room. -/
theorem join_validation_amended_witness :
    Server.handleJoin wsStateA "A" (some "zz") none 0 =
      (wsStateA, Server.sendTo wsStateA "A" (Server.SMsg.error "INVALID_ROOM_ID")) ∧
    Server.connRoom (Server.handleJoin wsStateAB "A" (some "ab12c3") none 0).1 "A" =
      some (Server.upperStr "ab12c3") :=
  ⟨join_validation_amended.2.2.1 wsStateA "A" "zz" none 0 (by decide) (by decide),
   (join_validation_amended.2.2.2.1 wsStateAB "A" "ab12c3" none 0 ⟨none, true⟩
      (by decide) (by decide) rfl (fun room h => Option.noConfusion h)).1⟩

/-- Witness for `rate_limit_spec`: an expired window resets to one fresh
message, and a connection already at 100 messages in the window has its next
message rejected with `RATE_LIMITED` and not forwarded. -/
theorem rate_limit_spec_witness :
    ((Server.checkRateLimit [("A", (5, 10))] "A" 11).2 = true ∧
      aget (Server.checkRateLimit [("A", (5, 10))] "A" 11).1 "A" =
        some (1, 11 + Server.RATE_LIMIT_WINDOW)) ∧
    ((Server.onMessage wsState0 [("A", (100, 2000))] "A" Server.CMsg.leave "AAAAAA" 50).1 =
        wsState0 ∧
      (Server.onMessage wsState0 [("A", (100, 2000))] "A" Server.CMsg.leave "AAAAAA" 50).2.2 =
        Server.sendTo wsState0 "A" (Server.SMsg.error "RATE_LIMITED")) :=
  ⟨rate_limit_spec.2.1 [("A", (5, 10))] "A" 5 10 11 (by decide) (by decide),
   rate_limit_spec.2.2 wsState0 [("A", (100, 2000))] "A" Server.CMsg.leave "AAAAAA" 50
     (by decide)⟩
